import Mathlib

/-
Shallow embedding of the Cura "calibration tower" post-processing plugin
(files calibration_tower/gcode.py and calibration_tower/calibration_processor.py).

Modelling conventions:
* Python strings are modelled as List Char; Python str.split, str.strip and
  str.join are reimplemented on List Char with the same semantics.
* Python numbers are modelled exactly: ints as Int and floats as Rat
  (the repository only manipulates decimal literals and ratios of them, which
  binary floats represent faithfully at every input used in the theorems
  below; float repr is modelled as the exact shortest decimal form).
  Where the dynamic Python type of a number is observable (the type check in
  GCodeCommand.new), values are modelled by the tagged type Value.
* Python exceptions that the code can raise and that are observable from the
  outside are modelled with Except PyErr; the catch-all in PrinterHead.handle
  is modelled by a total function.
-/

/-- Python character classes used by str.strip. -/
def pyIsSpace (c : Char) : Bool :=
  c = ' ' || c = '\t' || c = '\n' || c = '\r' || c = '\x0b' || c = '\x0c'

/-- Python s.split(sep) for a single-character separator: keeps empty pieces. -/
def splitOnChar (sep : Char) : List Char → List (List Char)
  | [] => [[]]
  | c :: cs =>
    match splitOnChar sep cs with
    | [] => [[]]
    | h :: t => if c = sep then [] :: h :: t else (c :: h) :: t

/-- Python s.strip(): remove leading and trailing whitespace. -/
def pyStrip (l : List Char) : List Char :=
  ((l.dropWhile pyIsSpace).reverse.dropWhile pyIsSpace).reverse

/-- Python sep.join(pieces) for a single-character separator. -/
def joinChar (sep : Char) : List (List Char) → List Char
  | [] => []
  | [p] => p
  | p :: ps => p ++ sep :: joinChar sep ps

/-- The character for a decimal digit. -/
def digitChar (d : ℕ) : Char := Char.ofNat (48 + d)

/-- Numeric value of a decimal digit character. -/
def digitVal (c : Char) : ℕ := c.toNat - 48

/-- Digit-string worker: fuel-bounded so that the kernel can evaluate it
(fuel ≥ n always suffices since n / 10 shrinks). -/
def natReprAux : ℕ → ℕ → List Char
  | 0, _ => []
  | fuel + 1, n =>
    if n = 0 then [] else natReprAux fuel (n / 10) ++ [digitChar (n % 10)]

/-- Decimal digit string of a natural number (no sign, no leading zeros). -/
def natRepr (n : ℕ) : List Char :=
  if n = 0 then ['0'] else natReprAux n n

/-- Python str(int): decimal digits with a leading '-' for negatives. -/
def intRepr (n : ℤ) : List Char :=
  if n < 0 then '-' :: natRepr n.natAbs else natRepr n.natAbs

/-- Most-significant-first evaluation of a decimal digit string. -/
def natOfDigitsAux : List Char → ℕ → ℕ
  | [], acc => acc
  | c :: t, acc => natOfDigitsAux t (10 * acc + digitVal c)

/-- Numeric value of a decimal digit string (most significant digit first). -/
def natOfDigits (l : List Char) : ℕ := natOfDigitsAux l 0

/-- Fuel-bounded count of the times 10 divides n. -/
def tzCountAux : ℕ → ℕ → ℕ
  | 0, _ => 0
  | fuel + 1, n =>
    if n = 0 then 0
    else if n % 10 = 0 then tzCountAux fuel (n / 10) + 1 else 0

/-- Number of times 10 divides n (0 for n = 0). -/
def tzCount (n : ℕ) : ℕ := tzCountAux n n

/-- Left-pad a digit string with zeros to width w. -/
def padTo (w : ℕ) (l : List Char) : List Char :=
  List.replicate (w - l.length) '0' ++ l

/-- Digits of the fractional part f/10^5 as Python float repr prints them:
trailing zeros removed, at least one digit. -/
def fracRepr (f : ℕ) : List Char :=
  if f = 0 then ['0']
  else padTo (5 - tzCount f) (natRepr (f / 10 ^ tzCount f))

/-- Decimal rendering of n/10^5, mirroring Python float repr on the values
round(v, 5) produces (an integer part, a dot, the fractional digits). -/
def fmtFixed5 (n : ℤ) : List Char :=
  (if n < 0 then ['-'] else []) ++
    natRepr (n.natAbs / 10 ^ 5) ++ '.' :: fracRepr (n.natAbs % 10 ^ 5)

/-- Round to the nearest integer, ties to even (Python round). -/
def roundHalfEven (q : ℚ) : ℤ :=
  let f := ⌊q⌋
  let r := q - f
  if r < 1 / 2 then f
  else if 1 / 2 < r then f + 1
  else if Even f then f else f + 1

/-- Python round(q, 5). -/
def round5 (q : ℚ) : ℚ := (roundHalfEven (q * 10 ^ 5) : ℚ) / 10 ^ 5

/-- Value of an unsigned decimal literal from its dot-split pieces. -/
def parseUnsignedPieces : List (List Char) → Option ℚ
  | [a] =>
    if a ≠ [] ∧ a.all Char.isDigit then some (natOfDigits a : ℚ) else none
  | [a, b] =>
    if a.all Char.isDigit ∧ b.all Char.isDigit ∧ (a ≠ [] ∨ b ≠ []) then
      some ((natOfDigits a : ℚ) + (natOfDigits b : ℚ) / 10 ^ b.length)
    else none
  | _ => none

/-- Parse an unsigned decimal literal (digits, optionally with one dot). -/
def parseUnsigned (s : List Char) : Option ℚ :=
  parseUnsignedPieces (splitOnChar '.' s)

/-- Python float(s) on the token shapes the plugin feeds it. -/
def parseFloatLit (s : List Char) : Option ℚ :=
  if s.head? = some '-' then (parseUnsigned s.tail).map (fun q => -q)
  else if s.head? = some '+' then parseUnsigned s.tail
  else parseUnsigned s

/-- Python int(s). -/
def parseIntLit (s : List Char) : Option ℤ :=
  if s.head? = some '-' then
    if s.tail ≠ [] ∧ s.tail.all Char.isDigit then
      some (-(natOfDigits s.tail : ℤ))
    else none
  else if s.head? = some '+' then
    if s.tail ≠ [] ∧ s.tail.all Char.isDigit then
      some (natOfDigits s.tail : ℤ)
    else none
  else if s ≠ [] ∧ s.all Char.isDigit then some (natOfDigits s : ℤ)
  else none

/-- Python int(q) for a number q: truncation toward zero. -/
def pyInt (q : ℚ) : ℤ := if q < 0 then ⌈q⌉ else ⌊q⌋

/-- Error kinds for the Python exceptions the gcode module can raise. -/
inductive PyErr
  | invalidLine
  | unsupportedCommand
  | valueError
  | typeError
deriving DecidableEq, Repr

/-- Dynamic type of an argument value as declared in a schema:
float, int, or NoneType (value-less flag arguments). -/
inductive ArgKind
  | kFloat
  | kInt
  | kFlag
deriving DecidableEq, Repr

/-- A Python number (or None) together with its dynamic type. -/
inductive Value
  | VFloat (q : ℚ)
  | VInt (n : ℤ)
  | VNone
deriving DecidableEq, Repr

/-- Numeric value of a Value (only applied where the source is guaranteed a
number; None never reaches arithmetic in the modelled paths). -/
def Value.toQ : Value → ℚ
  | .VFloat q => q
  | .VInt n => (n : ℚ)
  | .VNone => 0

/-- type(value) == declared-type check of GCodeCommand.new. -/
def kindMatches : ArgKind → Value → Bool
  | .kFloat, .VFloat _ => true
  | .kInt, .VInt _ => true
  | .kFlag, .VNone => true
  | _, _ => false

/-- gcode.py GCodeDescr: a command code with its ordered argument schema. -/
structure GCodeDescr where
  code : List Char
  arguments : List (Char × ArgKind)
deriving DecidableEq, Repr

def LINEAR_MOTION_COMMAND : GCodeDescr :=
  ⟨['G', '0'],
   [('F', .kFloat), ('X', .kFloat), ('Y', .kFloat), ('Z', .kFloat), ('E', .kFloat)]⟩

def LINEAR_MOTION_EXTRUDED_COMMAND : GCodeDescr :=
  ⟨['G', '1'],
   [('F', .kFloat), ('X', .kFloat), ('Y', .kFloat), ('Z', .kFloat), ('E', .kFloat)]⟩

def SET_HOTENT_TEMP_COMMAND : GCodeDescr :=
  ⟨['M', '1', '0', '4'],
   [('B', .kInt), ('F', .kFlag), ('I', .kInt), ('S', .kInt), ('T', .kInt)]⟩

def SET_FLOW_COMMAND : GCodeDescr :=
  ⟨['M', '2', '2', '1'], [('S', .kInt), ('T', .kInt)]⟩

def SET_FEEDRATE_COMMAND : GCodeDescr :=
  ⟨['M', '2', '2', '0'], [('S', .kInt), ('B', .kFlag), ('R', .kFlag)]⟩

def SET_FAN_SPEED_COMMAND : GCodeDescr :=
  ⟨['M', '1', '0', '6'],
   [('I', .kInt), ('P', .kInt), ('S', .kInt), ('T', .kInt)]⟩

def SET_LINEAR_ADVANCE_FACTOR : GCodeDescr :=
  ⟨['M', '9', '0', '0'],
   [('K', .kFloat), ('L', .kFloat), ('S', .kInt), ('T', .kInt)]⟩

/-- GCodeDescr.get_all_commands: the attributes whose name ends in _COMMAND,
scanned reflectively (dir() enumerates them in sorted name order).  Note that
SET_LINEAR_ADVANCE_FACTOR does not match that naming convention, so M900 is
absent from the lookup table even though its schema exists. -/
def gcodeCatalog : List GCodeDescr :=
  [LINEAR_MOTION_COMMAND, LINEAR_MOTION_EXTRUDED_COMMAND,
   SET_FAN_SPEED_COMMAND, SET_FEEDRATE_COMMAND, SET_FLOW_COMMAND,
   SET_HOTENT_TEMP_COMMAND]

/-- GCodeDescr.get: look a schema up by code. -/
def GCodeDescr.get (code : List Char) : Option GCodeDescr :=
  gcodeCatalog.find? (fun c => c.code = code)

/-- gcode.py GCodeCommand: optional code, argument map in insertion order
(a Python dict), trailing comment. -/
structure GCodeCommand where
  code : Option (List Char)
  args : List (Char × Value)
  comment : List Char
deriving DecidableEq, Repr

/-- GCodeCommand.command: schema of this command's code, if any. -/
def GCodeCommand.command (c : GCodeCommand) : Option GCodeDescr :=
  match c.code with
  | none => none
  | some cd => GCodeDescr.get cd

/-- Python dict assignment d[k] = v: overwrite in place, else append. -/
def assocSet (k : Char) (v : Value) : List (Char × Value) → List (Char × Value)
  | [] => [(k, v)]
  | (k', v') :: t => if k' = k then (k', v) :: t else (k', v') :: assocSet k v t

/-- Python k in d. -/
def assocHas (k : Char) (l : List (Char × Value)) : Bool :=
  (List.lookup k l).isSome

/-- str of one formatted argument value: round(v, 5) then format.  round of
None raises TypeError in Python. -/
def fmtArg : Value → Except PyErr (List Char)
  | .VInt n => .ok (intRepr n)
  | .VFloat q => .ok (fmtFixed5 (roundHalfEven (q * 10 ^ 5)))
  | .VNone => .error .typeError

def fmtArgList : List (Char × Value) → Except PyErr (List Char)
  | [] => .ok []
  | (k, v) :: t => do
    let s ← fmtArg v
    let r ← fmtArgList t
    .ok (' ' :: k :: (s ++ r))

/-- GCodeCommand.__str__: code, then each present argument in insertion
order, then the comment after a semicolon when non-empty. -/
def GCodeCommand.str (c : GCodeCommand) : Except PyErr (List Char) := do
  let codeStr := match c.code with
    | some cd => if cd = [] then [] else cd
    | none => []
  let argStr ← fmtArgList c.args
  .ok (codeStr ++ argStr ++ (if c.comment = [] then [] else ';' :: c.comment))

/-- One schema argument's value from a token's remainder, per declared kind
(None for flag arguments; float(...) / int(...) otherwise, where a valueless
token gives None to the conversion, a TypeError). -/
def parseValue : ArgKind → Option (List Char) → Except PyErr Value
  | .kFlag, _ => .ok .VNone
  | .kFloat, none => .error .typeError
  | .kFloat, some s =>
    match parseFloatLit s with
    | some q => .ok (.VFloat q)
    | none => .error .valueError
  | .kInt, none => .error .typeError
  | .kInt, some s =>
    match parseIntLit s with
    | some n => .ok (.VInt n)
    | none => .error .valueError

/-- The argument-extraction loop of GCodeCommand.parse: for each schema
argument in schema order, the first token whose leading letter matches wins. -/
def extractArgs (schemaArgs : List (Char × ArgKind)) (toks : List (List Char)) :
    Except PyErr (List (Char × Value)) :=
  match schemaArgs with
  | [] => .ok []
  | (a, kind) :: rest =>
    match toks.find? (fun t => t.head? = some a) with
    | none => extractArgs rest toks
    | some t => do
      let v ← parseValue kind (if t.tail = [] then none else some t.tail)
      let r ← extractArgs rest toks
      .ok ((a, v) :: r)

/-- GCodeCommand.parse. -/
def GCodeCommand.parse (line : List Char) : Except PyErr GCodeCommand :=
  match line with
  | [] => .ok ⟨none, [], []⟩
  | c0 :: _ =>
    if c0 ≠ 'G' ∧ c0 ≠ 'M' ∧ c0 ≠ ';' then .error .invalidLine
    else
      let parts := splitOnChar ';' line
      let toks := (splitOnChar ' ' (parts.headD [])).filter (fun t => t ≠ [])
      let comment := joinChar ' ' parts.tail
      match toks with
      | [] => .ok ⟨none, [], comment⟩
      | code :: rest =>
        match GCodeDescr.get code with
        | none => .error .unsupportedCommand
        | some descr => do
          let args ← extractArgs descr.arguments rest
          .ok ⟨some code, args, comment⟩

/-- The kwargs-checking loop of GCodeCommand.new: check each keyword in call
order and insert it into the result dict. -/
def newArgs (descr : GCodeDescr) (acc : List (Char × Value)) :
    List (Char × Value) → Except PyErr (List (Char × Value))
  | [] => .ok acc
  | (k, v) :: rest =>
    match List.lookup k descr.arguments with
    | none => .error .valueError
    | some kind =>
      if kindMatches kind v then newArgs descr (assocSet k v acc) rest
      else .error .valueError

/-- GCodeCommand.new: build a command from a schema and keyword arguments,
rejecting unknown letters and mismatched dynamic types. -/
def GCodeCommand.new (descr : GCodeDescr) (comment : List Char)
    (kwargs : List (Char × Value)) : Except PyErr GCodeCommand := do
  let args ← newArgs descr [] kwargs
  .ok ⟨some descr.code, args, comment⟩

/-- calibration_processor.py Retraction phases. -/
inductive RetractionPhase
  | NONE
  | RETRACTING
  | PRIMING
  | JUST_PRIMED
deriving DecidableEq, Repr

/-- Retraction state: committed and previous extrusion positions, last
retraction length, phase. -/
structure Retraction where
  last_e : ℚ
  e : ℚ
  last_retract : ℚ
  state : RetractionPhase
deriving DecidableEq, Repr

def Retraction.init : Retraction := ⟨0, 0, 0, .NONE⟩

/-- Retraction.handle_new_line: the per-line edge step. -/
def Retraction.handle_new_line (r : Retraction) : Retraction :=
  if r.state = .PRIMING then { r with state := .JUST_PRIMED }
  else if r.state = .JUST_PRIMED then { r with state := .NONE }
  else r

/-- Retraction._update_e. -/
def Retraction.update_e (r : Retraction) (new_e : ℚ) : Retraction :=
  { r with last_e := r.e, e := new_e }

/-- Retraction.handle_linear_motion. -/
def Retraction.handle_linear_motion (r : Retraction) (cmd : GCodeCommand) :
    Retraction :=
  if cmd.command = some LINEAR_MOTION_EXTRUDED_COMMAND then
    let r1 :=
      if assocHas 'E' cmd.args then
        r.update_e ((List.lookup 'E' cmd.args).getD .VNone).toQ
      else r
    if (¬ assocHas 'X' cmd.args ∧ ¬ assocHas 'Y' cmd.args ∧
        ¬ assocHas 'Z' cmd.args) ∧ assocHas 'E' cmd.args then
      if r1.last_e > r1.e then
        { r1 with state := .RETRACTING, last_retract := r1.last_e - r1.e }
      else if r1.last_e < r1.e then { r1 with state := .PRIMING }
      else r1
    else r1
  else r

/-- calibration_processor.py PrinterHead.  The feedrate keeps its dynamic
Python type (int 0 initially, float after any parsed F argument), because
GCodeCommand.new type-checks it; the other coordinates are only used
numerically. -/
structure PrinterHead where
  x : ℚ
  y : ℚ
  z : ℚ
  e : ℚ
  feedrate : Value
  temp : ℚ
  retraction : Retraction
deriving DecidableEq, Repr

def PrinterHead.init : PrinterHead := ⟨0, 0, 0, 0, .VInt 0, 0, .init⟩

/-- PrinterHead._handle_linear_motion. -/
def PrinterHead.handle_linear_motion (h : PrinterHead)
    (args : List (Char × Value)) : PrinterHead :=
  let h := match List.lookup 'X' args with
    | some v => { h with x := v.toQ } | none => h
  let h := match List.lookup 'Y' args with
    | some v => { h with y := v.toQ } | none => h
  let h := match List.lookup 'Z' args with
    | some v => { h with z := v.toQ } | none => h
  let h := match List.lookup 'E' args with
    | some v => { h with e := v.toQ } | none => h
  match List.lookup 'F' args with
  | some v => { h with feedrate := v } | none => h

/-- PrinterHead._handle_set_hotend_temp. -/
def PrinterHead.handle_set_hotend_temp (h : PrinterHead)
    (args : List (Char × Value)) : PrinterHead :=
  match List.lookup 'S' args with
  | some v => { h with temp := v.toQ } | none => h

/-- The dispatch on a successfully parsed command inside PrinterHead.handle's
try block. -/
def PrinterHead.handle_parsed (h : PrinterHead) (cmd : GCodeCommand) : PrinterHead :=
  if cmd.command = some LINEAR_MOTION_COMMAND ∨
     cmd.command = some LINEAR_MOTION_EXTRUDED_COMMAND then
    let h := h.handle_linear_motion cmd.args
    { h with retraction := h.retraction.handle_linear_motion cmd }
  else if cmd.command = some SET_HOTENT_TEMP_COMMAND then
    h.handle_set_hotend_temp cmd.args
  else h

/-- PrinterHead.handle: advance the retraction edge state, then best-effort
parse and track; every parse failure is swallowed. -/
def PrinterHead.handle (h : PrinterHead) (line : List Char) : PrinterHead :=
  let h := { h with retraction := h.retraction.handle_new_line }
  match GCodeCommand.parse line with
  | .error _ => h
  | .ok cmd => h.handle_parsed cmd

/-- The two HeightDetector variants (the millimeter one carries last_z). -/
inductive HDVariant
  | layer
  | mm (last_z : ℚ)
deriving DecidableEq, Repr

/-- calibration_processor.py HeightDetector state. -/
structure HeightDetector where
  offset : ℚ
  step_size : ℚ
  count : ℤ
  just_reached_new_step : Bool
  current_step : ℤ
  variant : HDVariant
deriving DecidableEq, Repr

def LayerHeightDetector.mk' (offset step_size : ℚ) (count : ℤ) : HeightDetector :=
  ⟨offset, step_size, count, false, 0, .layer⟩

def MillimeterHeightDetector.mk' (offset step_size : ℚ) (count : ℤ) : HeightDetector :=
  ⟨offset, step_size, count, false, 0, .mm 0⟩

/-- HeightDetector.normalize: max(0, current - offset + 1) followed by
floor division (Python //) by the step size. -/
def HeightDetector.normalize (current offset step : ℚ) : ℤ :=
  ⌊(max 0 (current - offset + 1) + step - 1) / step⌋

/-- HeightDetector._calculate_step of the two variants (the line argument is
passed through as in the source and inspected by neither variant); returns
the raw step and the updated variant state. -/
def HeightDetector.calculate_step (d : HeightDetector) (line : List Char)
    (head : PrinterHead) (layer : ℤ) : ℤ × HDVariant :=
  match d.variant with
  | .layer => (HeightDetector.normalize (layer : ℚ) d.offset d.step_size, .layer)
  | .mm last_z =>
    if head.z ≠ last_z then
      (HeightDetector.normalize head.z d.offset d.step_size, .mm head.z)
    else (d.current_step, .mm last_z)

/-- HeightDetector.handle. -/
def HeightDetector.handle (d : HeightDetector) (line : List Char)
    (head : PrinterHead) (layer : Option ℤ) : HeightDetector :=
  let d1 := { d with just_reached_new_step := false }
  match layer with
  | none => { d1 with current_step := 0 }
  | some l =>
    let (raw, variant) := d1.calculate_step line head l
    let step := min raw d1.count
    { d1 with
      just_reached_new_step := step ≠ d.current_step,
      current_step := step,
      variant := variant }

/-- calibration_processor.py Marker: the per-line rewrite record. -/
structure Marker where
  lines_before : List (List Char)
  line : List Char
  lines_after : List (List Char)
deriving DecidableEq, Repr

def Marker.mk' (line : List Char) : Marker := ⟨[], line, []⟩

/-- The configured step processors.  Each carries its ramp (start, step).
RetractionSpeedProcessor's constructor pre-scales both by 60, see
mkRetractionSpeedProcessor. -/
inductive Processor
  | HotendTempProcessor (start step : ℚ)
  | FlowProcessor (start step : ℚ)
  | SpeedProcessor (start step : ℚ)
  | FanProcessor (start step : ℚ)
  | LinearAdvanceProcessor (start step : ℚ)
  | PrintSpeedProcessor (start step : ℚ)
  | RetractionLengthProcessor (start step : ℚ)
  | RetractionSpeedProcessor (start step : ℚ)
deriving DecidableEq, Repr

/-- RetractionSpeedProcessor.__init__ multiplies start and step by 60.0. -/
def mkRetractionSpeedProcessor (start step : ℚ) : Processor :=
  .RetractionSpeedProcessor (start * 60) (step * 60)

/-- Processor._get_current_value: the linear ramp. -/
def rampValue (start step : ℚ) (current_step : ℤ) : ℚ :=
  start + ((current_step : ℚ) - 1) * step

/-- The _create_command of each SingleCommandProcessor subclass. -/
def createCommand (p : Processor) (value : ℚ) : Except PyErr (List Char) :=
  match p with
  | .HotendTempProcessor _ _ => do
    let c ← GCodeCommand.new SET_HOTENT_TEMP_COMMAND [] [('S', .VInt (pyInt value))]
    c.str
  | .FlowProcessor _ _ => do
    let c ← GCodeCommand.new SET_FLOW_COMMAND [] [('S', .VInt (pyInt value))]
    c.str
  | .SpeedProcessor _ _ => do
    let c ← GCodeCommand.new SET_FEEDRATE_COMMAND [] [('S', .VInt (pyInt value))]
    c.str
  | .FanProcessor _ _ => do
    let c ← GCodeCommand.new SET_FAN_SPEED_COMMAND []
      [('S', .VInt (pyInt (min 100 value / 100 * 255)))]
    c.str
  | .LinearAdvanceProcessor _ _ => do
    let c ← GCodeCommand.new SET_LINEAR_ADVANCE_FACTOR [] [('K', .VFloat value)]
    c.str
  | _ => .ok []

/-- Processor.handle of every processor variant. -/
def Processor.handle (p : Processor) (m : Marker) (d : HeightDetector)
    (head : PrinterHead) : Except PyErr Marker :=
  match p with
  | .HotendTempProcessor start step | .FlowProcessor start step
  | .SpeedProcessor start step | .FanProcessor start step
  | .LinearAdvanceProcessor start step =>
    if d.just_reached_new_step then do
      let s ← createCommand p (rampValue start step d.current_step)
      .ok { m with lines_before := m.lines_before ++ [s] }
    else .ok m
  | .PrintSpeedProcessor start step =>
    if d.current_step ≠ 0 then do
      let cmd ← GCodeCommand.parse m.line
      if cmd.command = some LINEAR_MOTION_EXTRUDED_COMMAND then
        if head.retraction.state = .JUST_PRIMED ∨
           (head.retraction.state = .NONE ∧ assocHas 'F' cmd.args) then do
          let v := head.feedrate.toQ / 100 * rampValue start step d.current_step
          let s ← GCodeCommand.str { cmd with args := assocSet 'F' (.VFloat v) cmd.args }
          .ok { m with line := s }
        else .ok m
      else .ok m
    else .ok m
  | .RetractionLengthProcessor start step =>
    if d.current_step ≠ 0 then do
      let cmd ← GCodeCommand.parse m.line
      if cmd.command = some LINEAR_MOTION_EXTRUDED_COMMAND then
        if head.retraction.state = .RETRACTING then do
          let v := head.e + head.retraction.last_retract -
            rampValue start step d.current_step
          let s ← GCodeCommand.str { cmd with args := assocSet 'E' (.VFloat v) cmd.args }
          .ok { m with line := s }
        else .ok m
      else .ok m
    else .ok m
  | .RetractionSpeedProcessor start step =>
    if d.current_step ≠ 0 then do
      let cmd ← GCodeCommand.parse m.line
      if cmd.command = some LINEAR_MOTION_EXTRUDED_COMMAND then
        if head.retraction.state = .RETRACTING ∨
           head.retraction.state = .PRIMING then do
          let v := rampValue start step d.current_step
          let s ← GCodeCommand.str { cmd with args := assocSet 'F' (.VFloat v) cmd.args }
          let restore ← GCodeCommand.new LINEAR_MOTION_EXTRUDED_COMMAND []
            [('F', head.feedrate)]
          let rs ← restore.str
          .ok { m with line := s, lines_after := m.lines_after ++ [rs] }
        else .ok m
      else .ok m
    else .ok m

/-- CalibrationProcessor._check_layer: the regex match of ;LAYER:(digits)
at the start of the line. -/
def checkLayer (line : List Char) : Option ℤ :=
  match line with
  | ';' :: 'L' :: 'A' :: 'Y' :: 'E' :: 'R' :: ':' :: rest =>
    let ds := rest.takeWhile Char.isDigit
    if ds = [] then none else some (natOfDigits ds : ℤ)
  | _ => none

/-- The mutable state a CalibrationProcessor instance owns across lines,
blocks and process_data calls. -/
structure PState where
  head : PrinterHead
  detector : HeightDetector
deriving DecidableEq, Repr

/-- Run every configured processor, in order, over one Marker. -/
def runProcessors (ps : List Processor) (d : HeightDetector) (head : PrinterHead) :
    Marker → Except PyErr Marker
  | m =>
    match ps with
    | [] => .ok m
    | p :: rest => do
      let m1 ← p.handle m d head
      runProcessors rest d head m1

/-- The once-per-block layer latch: check the line only while no layer has
been seen yet (current_layer is None). -/
def updateLayer (lay : Option ℤ) (line : List Char) : Option ℤ :=
  match lay with
  | none => checkLayer line
  | some l => some l

/-- The per-line loop body of CalibrationProcessor.process_data, over the
already stripped, non-blank lines of one block. -/
def processLines (ps : List Processor) : PState → Option ℤ → List (List Char) →
    Except PyErr (PState × List (List Char))
  | st, _, [] => .ok (st, [])
  | st, layer, line :: rest => do
    let layer := updateLayer layer line
    let head := st.head.handle line
    let det := st.detector.handle line head layer
    let m ← runProcessors ps det head (Marker.mk' line)
    let (st', out) ← processLines ps ⟨head, det⟩ layer rest
    .ok (st', (m.lines_before ++ m.line :: m.lines_after) ++ out)

/-- The stripped non-blank lines of a block. -/
def keptLines (block : List Char) : List (List Char) :=
  ((splitOnChar '\n' block).map pyStrip).filter (fun l => l ≠ [])

/-- One iteration of the block loop of process_data: produces the rewritten
block, newline-joined with a trailing newline. -/
def processBlock (ps : List Processor) (st : PState) (block : List Char) :
    Except PyErr (PState × List Char) := do
  let (st', out) ← processLines ps st none (keptLines block)
  .ok (st', joinChar '\n' out ++ ['\n'])

/-- CalibrationProcessor.process_data: fold over the blocks, threading the
instance state, returning the final state with the rewritten blocks. -/
def process_data (ps : List Processor) : PState → List (List Char) →
    Except PyErr (PState × List (List Char))
  | st, [] => .ok (st, [])
  | st, b :: bs => do
    let (st1, nb) ← processBlock ps st b
    let (st2, rest) ← process_data ps st1 bs
    .ok (st2, nb :: rest)

/-- The output blocks of a process_data call (the Python return value). -/
def processOutputs (ps : List Processor) (st : PState) (data : List (List Char)) :
    Except PyErr (List (List Char)) :=
  (process_data ps st data).map (fun r => r.2)

/-- A character that the plugin's token grammar treats as numeric text. -/
def numChar (c : Char) : Prop := c.isDigit = true ∨ c = '-' ∨ c = '.'

instance exceptDecidableEq {ε α : Type} [DecidableEq ε] [DecidableEq α] :
    DecidableEq (Except ε α) := fun x y =>
  match x, y with
  | .error a, .error b =>
    if h : a = b then .isTrue (by rw [h])
    else .isFalse (by intro hc; cases hc; exact h rfl)
  | .error _, .ok _ => .isFalse (by intro hc; cases hc)
  | .ok _, .error _ => .isFalse (by intro hc; cases hc)
  | .ok a, .ok b =>
    if h : a = b then .isTrue (by rw [h])
    else .isFalse (by intro hc; cases hc; exact h rfl)

/-- Total rendering of a non-None argument value (what fmtArg returns). -/
def fmtNum : Value → List Char
  | .VInt n => intRepr n
  | .VFloat q => fmtFixed5 (roundHalfEven (q * 10 ^ 5))
  | .VNone => []

/-- The rounding parse applies to a value that went through format. -/
def roundVal : Value → Value
  | .VFloat q => .VFloat (round5 q)
  | v => v

/-- The arguments parse reconstructs from a formatted command: schema order,
first-token-wins lookup, floats rounded to 5 decimals. -/
def schemaRoundArgs (schemaArgs : List (Char × ArgKind))
    (args : List (Char × Value)) : List (Char × Value) :=
  schemaArgs.filterMap (fun ak => (List.lookup ak.1 args).map (fun v => (ak.1, roundVal v)))

/-- Well-formedness facts about a catalog schema, checked by computation. -/
def descrWF (d : GCodeDescr) : Prop :=
  d.code ≠ [] ∧
  (d.code.head? = some 'G' ∨ d.code.head? = some 'M') ∧
  (∀ c ∈ d.code, c ≠ ' ' ∧ c ≠ ';') ∧
  (d.arguments.map Prod.fst).Nodup ∧
  (∀ k ∈ d.arguments.map Prod.fst, k ≠ ' ' ∧ k ≠ ';')

instance : DecidablePred descrWF := fun d => by
  unfold descrWF
  infer_instance

/-- The concatenated argument part of a formatted command. -/
def argTokens (args : List (Char × Value)) : List Char :=
  (args.map (fun kv => ' ' :: kv.1 :: fmtNum kv.2)).flatten

/-- Valid keyword arguments for build: distinct letters, each declared in the
schema with a matching non-flag numeric kind. -/
def validNumArgs (descr : GCodeDescr) (args : List (Char × Value)) : Prop :=
  (args.map Prod.fst).Nodup ∧
  ∀ kv ∈ args, (List.lookup kv.1 descr.arguments).any
    (fun kind => kindMatches kind kv.2 && !(kind == ArgKind.kFlag)) = true

instance (descr : GCodeDescr) : DecidablePred (validNumArgs descr) := fun args => by
  unfold validNumArgs
  infer_instance

/-- The lines one Marker contributes to the output block. -/
def tripLines (t : List (List Char) × List Char × List (List Char)) :
    List (List Char) :=
  t.1 ++ t.2.1 :: t.2.2

/-- A line that makes the retraction tracker change phase when processed from
head state h: a parse-able extrusion-only G1 whose E value differs from the
tracked extrusion position. -/
def lineTriggers (h : PrinterHead) (line : List Char) : Prop :=
  ∃ cmd, GCodeCommand.parse line = .ok cmd ∧
    cmd.command = some LINEAR_MOTION_EXTRUDED_COMMAND ∧
    assocHas 'E' cmd.args = true ∧ assocHas 'X' cmd.args = false ∧
    assocHas 'Y' cmd.args = false ∧ assocHas 'Z' cmd.args = false ∧
    ((List.lookup 'E' cmd.args).getD .VNone).toQ ≠ h.retraction.e

theorem splitOnChar_ne_nil (sep : Char) (l : List Char) :
    splitOnChar sep l ≠ [] := by
  cases l with
  | nil => simp [splitOnChar]
  | cons c cs =>
    simp only [splitOnChar]
    rcases h : splitOnChar sep cs with _ | ⟨h1, t⟩
    · simp
    · by_cases hc : c = sep <;> simp [hc]

theorem splitOnChar_no_sep {sep : Char} {l : List Char} (h : sep ∉ l) :
    splitOnChar sep l = [l] := by
  induction l with
  | nil => rfl
  | cons c cs ih =>
    simp only [List.mem_cons, not_or] at h
    simp only [splitOnChar, ih h.2]
    simp [fun hc : c = sep => h.1 (hc ▸ rfl), Ne.symm h.1]

theorem splitOnChar_append {sep : Char} {a : List Char} (b : List Char)
    (h : sep ∉ a) : splitOnChar sep (a ++ sep :: b) = a :: splitOnChar sep b := by
  induction a with
  | nil =>
    simp only [List.nil_append, splitOnChar]
    rcases hb : splitOnChar sep b with _ | ⟨h1, t⟩
    · exact absurd hb (splitOnChar_ne_nil sep b)
    · simp
  | cons c cs ih =>
    simp only [List.mem_cons, not_or] at h
    have hc : ¬ c = sep := fun hc => h.1 hc.symm
    simp only [List.cons_append, splitOnChar, List.append_eq]
    rw [ih h.2]
    simp [hc]

theorem joinChar_nil (sep : Char) : joinChar sep [] = [] := rfl

theorem natOfDigitsAux_eq (l : List Char) :
    ∀ x, natOfDigitsAux l x = x * 10 ^ l.length + natOfDigitsAux l 0 := by
  induction l with
  | nil => intro x; simp [natOfDigitsAux]
  | cons c t ih =>
    intro x
    rw [natOfDigitsAux, ih (10 * x + digitVal c)]
    conv_rhs => rw [natOfDigitsAux, ih (10 * 0 + digitVal c)]
    simp only [List.length_cons]
    ring

theorem natOfDigits_cons (c : Char) (l : List Char) :
    natOfDigits (c :: l) = natOfDigits l + digitVal c * 10 ^ l.length := by
  rw [natOfDigits, natOfDigitsAux, natOfDigitsAux_eq, natOfDigits]
  ring

theorem natOfDigits_append (a b : List Char) :
    natOfDigits (a ++ b) = natOfDigits a * 10 ^ b.length + natOfDigits b := by
  induction a with
  | nil => simp [natOfDigits, natOfDigitsAux]
  | cons c t ih =>
    simp only [List.cons_append, natOfDigits_cons, ih, List.length_append]
    ring

theorem natOfDigits_replicate_zero (k : ℕ) :
    natOfDigits (List.replicate k '0') = 0 := by
  induction k with
  | zero => rfl
  | succ n ih => simp [List.replicate_succ, natOfDigits_cons, ih, digitVal]

theorem digitVal_digitChar {d : ℕ} (h : d < 10) : digitVal (digitChar d) = d := by
  interval_cases d <;> rfl

theorem isDigit_digitChar {d : ℕ} (h : d < 10) : (digitChar d).isDigit = true := by
  interval_cases d <;> rfl

theorem natOfDigits_singleton (c : Char) : natOfDigits [c] = digitVal c := by
  simp [natOfDigits, natOfDigitsAux]

theorem natReprAux_eq_digits :
    ∀ (fuel n : ℕ), n ≤ fuel →
      natReprAux fuel n = (Nat.digits 10 n).reverse.map digitChar := by
  intro fuel
  induction fuel with
  | zero =>
    intro n hn
    obtain rfl : n = 0 := Nat.le_zero.mp hn
    simp [natReprAux]
  | succ f ih =>
    intro n hn
    rw [natReprAux]
    by_cases h0 : n = 0
    · subst h0; simp
    · rw [if_neg h0]
      have hdiv : n / 10 ≤ f := by
        have : n / 10 < n := Nat.div_lt_self (Nat.pos_of_ne_zero h0) (by norm_num)
        omega
      rw [ih (n / 10) hdiv]
      rw [Nat.digits_def' (by norm_num : 1 < 10) (Nat.pos_of_ne_zero h0)]
      simp

theorem natRepr_eq (n : ℕ) :
    natRepr n = if n = 0 then ['0'] else ((Nat.digits 10 n).reverse.map digitChar) := by
  rw [natRepr]
  by_cases h0 : n = 0
  · rw [if_pos h0, if_pos h0]
  · rw [if_neg h0, if_neg h0, natReprAux_eq_digits n n le_rfl]

theorem tzCountAux_zero (f : ℕ) : tzCountAux f 0 = 0 := by
  cases f <;> simp [tzCountAux]

theorem tzCountAux_stable :
    ∀ (f1 n f2 : ℕ), n ≤ f1 → n ≤ f2 → tzCountAux f1 n = tzCountAux f2 n := by
  intro f1
  induction f1 with
  | zero =>
    intro n f2 h1 _
    obtain rfl : n = 0 := Nat.le_zero.mp h1
    rw [tzCountAux_zero, tzCountAux_zero]
  | succ f ih =>
    intro n f2 h1 h2
    by_cases h0 : n = 0
    · subst h0; rw [tzCountAux_zero, tzCountAux_zero]
    · obtain ⟨f2p, rfl⟩ : ∃ m, f2 = m + 1 :=
        ⟨f2 - 1, by omega⟩
      rw [tzCountAux, tzCountAux, if_neg h0, if_neg h0]
      by_cases h10 : n % 10 = 0
      · rw [if_pos h10, if_pos h10]
        have hdiv : n / 10 < n := Nat.div_lt_self (Nat.pos_of_ne_zero h0) (by norm_num)
        rw [ih (n / 10) f2p (by omega) (by omega)]
      · rw [if_neg h10, if_neg h10]

theorem tzCount_unfold (n : ℕ) :
    tzCount n = if n = 0 then 0 else if n % 10 = 0 then tzCount (n / 10) + 1 else 0 := by
  rw [tzCount]
  by_cases h0 : n = 0
  · subst h0; rw [tzCountAux_zero]; rfl
  · obtain ⟨m, rfl⟩ : ∃ m, n = m + 1 := ⟨n - 1, by omega⟩
    rw [tzCountAux, if_neg h0, if_neg h0]
    by_cases h10 : (m + 1) % 10 = 0
    · rw [if_pos h10, if_pos h10, tzCount]
      have hdiv : (m + 1) / 10 < m + 1 := Nat.div_lt_self (by omega) (by norm_num)
      rw [tzCountAux_stable m ((m + 1) / 10) ((m + 1) / 10) (by omega) le_rfl]
    · rw [if_neg h10, if_neg h10]

theorem natOfDigits_natRepr (n : ℕ) : natOfDigits (natRepr n) = n := by
  rcases eq_or_ne n 0 with rfl | hn
  · rfl
  · have key : ∀ L : List ℕ, (∀ d ∈ L, d < 10) →
        natOfDigits (L.reverse.map digitChar) = Nat.ofDigits 10 L := by
      intro L
      induction L with
      | nil => intro _; rfl
      | cons d t ih =>
        intro hd
        have hdd : d < 10 := hd d (by simp)
        have hdt : ∀ x ∈ t, x < 10 := fun x hx => hd x (by simp [hx])
        rw [List.reverse_cons, List.map_append, natOfDigits_append, ih hdt]
        simp only [List.map_cons, List.map_nil, List.length_cons,
          List.length_nil, Nat.ofDigits_cons]
        rw [natOfDigits_singleton, digitVal_digitChar hdd]
        push_cast
        ring
    rw [natRepr_eq, if_neg hn, key _ (fun d hd => Nat.digits_lt_base (by norm_num) hd)]
    exact Nat.ofDigits_digits 10 n

theorem natRepr_all_digits (n : ℕ) : ∀ c ∈ natRepr n, c.isDigit = true := by
  rcases eq_or_ne n 0 with rfl | hn
  · intro c hc
    simp [natRepr_eq] at hc
    subst hc; rfl
  · intro c hc
    rw [natRepr_eq, if_neg hn] at hc
    simp only [List.mem_map, List.mem_reverse] at hc
    obtain ⟨d, hd, rfl⟩ := hc
    exact isDigit_digitChar (Nat.digits_lt_base (by norm_num) hd)

theorem natRepr_ne_nil (n : ℕ) : natRepr n ≠ [] := by
  rcases eq_or_ne n 0 with rfl | hn
  · simp [natRepr_eq]
  · simp only [natRepr_eq, hn, if_false]
    simp [Nat.digits_ne_nil_iff_ne_zero, hn]

theorem natRepr_length_le {n w : ℕ} (hw : 0 < w) (h : n < 10 ^ w) :
    (natRepr n).length ≤ w := by
  rcases eq_or_ne n 0 with rfl | hn
  · simpa [natRepr_eq] using hw
  · simp only [natRepr_eq, hn, if_false, List.length_map, List.length_reverse]
    by_contra hlt
    push_neg at hlt
    have h1 : 10 ^ (Nat.digits 10 n).length ≤ 10 * n :=
      Nat.base_pow_length_digits_le 10 n (by norm_num) hn
    have h2 : 10 ^ (w + 1) ≤ 10 ^ (Nat.digits 10 n).length :=
      Nat.pow_le_pow_right (by norm_num) hlt
    have h3 : 10 * n < 10 * 10 ^ w := by omega
    have : (10 : ℕ) ^ (w + 1) = 10 * 10 ^ w := by ring
    omega

theorem isDigit_ne_dash {c : Char} (h : c.isDigit = true) : c ≠ '-' := by
  intro hc; subst hc; exact absurd h (by decide)

theorem isDigit_ne_plus {c : Char} (h : c.isDigit = true) : c ≠ '+' := by
  intro hc; subst hc; exact absurd h (by decide)

theorem isDigit_ne_dot {c : Char} (h : c.isDigit = true) : c ≠ '.' := by
  intro hc; subst hc; exact absurd h (by decide)

theorem tzCount_dvd : ∀ n : ℕ, 10 ^ tzCount n ∣ n := by
  intro n
  induction n using Nat.strong_induction_on with
  | _ n ih =>
    rcases eq_or_ne n 0 with rfl | hn
    · simp
    by_cases h10 : n % 10 = 0
    · rw [tzCount_unfold, if_neg hn, if_pos h10]
      have hlt : n / 10 < n := Nat.div_lt_self (Nat.pos_of_ne_zero hn) (by norm_num)
      obtain ⟨c, hc⟩ := ih (n / 10) hlt
      refine ⟨c, ?_⟩
      calc n = 10 * (n / 10) := by omega
        _ = 10 * (10 ^ tzCount (n / 10) * c) := by rw [← hc]
        _ = 10 ^ (tzCount (n / 10) + 1) * c := by ring
    · rw [tzCount_unfold, if_neg hn, if_neg h10]
      simp

theorem tzCount_lt_five {f : ℕ} (hf0 : f ≠ 0) (hf : f < 10 ^ 5) :
    tzCount f < 5 := by
  have hle : 10 ^ tzCount f ≤ f := Nat.le_of_dvd (Nat.pos_of_ne_zero hf0) (tzCount_dvd f)
  by_contra hge
  push_neg at hge
  have : (10 : ℕ) ^ 5 ≤ 10 ^ tzCount f := Nat.pow_le_pow_right (by norm_num) hge
  omega

theorem fracRepr_spec {f : ℕ} (hf : f < 10 ^ 5) :
    (∀ c ∈ fracRepr f, c.isDigit = true) ∧ fracRepr f ≠ [] ∧
      (natOfDigits (fracRepr f) : ℚ) / 10 ^ (fracRepr f).length = (f : ℚ) / 10 ^ 5 := by
  rcases eq_or_ne f 0 with rfl | hf0
  · refine ⟨?_, by simp [fracRepr], ?_⟩
    · intro c hc
      simp [fracRepr] at hc
      subst hc; rfl
    · simp [fracRepr, natOfDigits_singleton, digitVal]
  · obtain ⟨g, hg⟩ := tzCount_dvd f
    set k := tzCount f with hk
    have hk5 : k < 5 := by rw [hk]; exact tzCount_lt_five hf0 hf
    have hgne : g ≠ 0 := by rintro rfl; simp at hg; exact hf0 hg
    have hpos : 0 < 10 ^ k := pow_pos (by norm_num) k
    have hdivg : f / 10 ^ k = g := by
      rw [hg]; exact Nat.mul_div_cancel_left g hpos
    have hglt : g < 10 ^ (5 - k) := by
      have hsum : 5 - k + k = 5 := by omega
      by_contra hge
      push_neg at hge
      have h1 : 10 ^ (5 - k) * 10 ^ k ≤ g * 10 ^ k :=
        Nat.mul_le_mul_right _ hge
      rw [← pow_add, hsum] at h1
      have h2 : g * 10 ^ k = f := by rw [hg]; ring
      omega
    have hlen : (natRepr g).length ≤ 5 - k :=
      natRepr_length_le (by omega) hglt
    have hshape : fracRepr f = List.replicate (5 - k - (natRepr g).length) '0'
        ++ natRepr g := by
      rw [fracRepr, if_neg hf0, ← hk, hdivg, padTo]
    have hvallen : (fracRepr f).length = 5 - k := by
      rw [hshape]
      simp only [List.length_append, List.length_replicate]
      omega
    have hval : natOfDigits (fracRepr f) = g := by
      rw [hshape, natOfDigits_append, natOfDigits_replicate_zero, natOfDigits_natRepr]
      simp
    refine ⟨?_, ?_, ?_⟩
    · intro c hc
      rw [hshape] at hc
      rcases List.mem_append.mp hc with h | h
      · rw [List.eq_of_mem_replicate h]; rfl
      · exact natRepr_all_digits g c h
    · rw [hshape]
      simp [natRepr_ne_nil g]
    · rw [hval, hvallen]
      have hfgn : f = g * 10 ^ k := by conv_lhs => rw [hg]; ring_nf
      have hfg : (f : ℚ) = (g : ℚ) * 10 ^ k := by exact_mod_cast hfgn
      have hsplit : (10 : ℚ) ^ 5 = 10 ^ (5 - k) * 10 ^ k := by
        rw [← pow_add]
        congr 1
        omega
      rw [div_eq_div_iff (by positivity) (by positivity), hfg, hsplit]
      ring

theorem natRepr_head_digit (n : ℕ) :
    ∃ c cs, natRepr n = c :: cs ∧ c.isDigit = true := by
  rcases hsh : natRepr n with _ | ⟨c, cs⟩
  · exact absurd hsh (natRepr_ne_nil n)
  · exact ⟨c, cs, rfl, natRepr_all_digits n c (by rw [hsh]; simp)⟩

theorem parseUnsigned_body {ip fr : ℕ} (hfr : fr < 10 ^ 5) :
    parseUnsigned (natRepr ip ++ '.' :: fracRepr fr) =
      some ((ip : ℚ) + (fr : ℚ) / 10 ^ 5) := by
  obtain ⟨hdig, hnn, hvq⟩ := fracRepr_spec hfr
  have hnodot1 : '.' ∉ natRepr ip := fun h =>
    isDigit_ne_dot (natRepr_all_digits ip '.' h) rfl
  have hnodot2 : '.' ∉ fracRepr fr := fun h => isDigit_ne_dot (hdig '.' h) rfl
  have hall1 : (natRepr ip).all Char.isDigit = true :=
    List.all_eq_true.mpr fun c hc => natRepr_all_digits ip c hc
  have hall2 : (fracRepr fr).all Char.isDigit = true :=
    List.all_eq_true.mpr fun c hc => hdig c hc
  rw [parseUnsigned, splitOnChar_append _ hnodot1, splitOnChar_no_sep hnodot2,
    parseUnsignedPieces]
  rw [if_pos ⟨hall1, hall2, Or.inl (natRepr_ne_nil ip)⟩]
  rw [natOfDigits_natRepr, hvq]

theorem parseFloatLit_fmtFixed5 (n : ℤ) :
    parseFloatLit (fmtFixed5 n) = some ((n : ℚ) / 10 ^ 5) := by
  have hfr : n.natAbs % 10 ^ 5 < 10 ^ 5 := Nat.mod_lt _ (by norm_num)
  have h0 : 10 ^ 5 * (n.natAbs / 10 ^ 5) + n.natAbs % 10 ^ 5 = n.natAbs :=
    Nat.div_add_mod _ _
  have h0q : (10 : ℚ) ^ 5 * ((n.natAbs / 10 ^ 5 : ℕ) : ℚ) +
      ((n.natAbs % 10 ^ 5 : ℕ) : ℚ) = (n.natAbs : ℚ) := by exact_mod_cast h0
  have hsum : ((n.natAbs / 10 ^ 5 : ℕ) : ℚ) + ((n.natAbs % 10 ^ 5 : ℕ) : ℚ) / 10 ^ 5 =
      (n.natAbs : ℚ) / 10 ^ 5 := by
    rw [← h0q]
    field_simp
    ring
  obtain ⟨c, cs, hcc, hcd⟩ := natRepr_head_digit (n.natAbs / 10 ^ 5)
  have hne1 : ¬ (some c = some '-') :=
    fun h => isDigit_ne_dash hcd (Option.some.inj h)
  have hne2 : ¬ (some c = some '+') :=
    fun h => isDigit_ne_plus hcd (Option.some.inj h)
  by_cases hneg : n < 0
  · have hhd : (fmtFixed5 n).head? = some '-' := by
      rw [fmtFixed5, if_pos hneg]; rfl
    have htl : (fmtFixed5 n).tail =
        natRepr (n.natAbs / 10 ^ 5) ++ '.' :: fracRepr (n.natAbs % 10 ^ 5) := by
      rw [fmtFixed5, if_pos hneg]; rfl
    rw [parseFloatLit, hhd]
    rw [if_pos rfl, htl, parseUnsigned_body hfr, Option.map_some', hsum]
    have habs : (n.natAbs : ℚ) = -(n : ℚ) := by
      rw [Int.cast_natAbs, Int.cast_abs]
      rw [abs_of_neg (by exact_mod_cast hneg : (n : ℚ) < 0)]
    rw [habs]
    congr 1
    ring
  · have hhd : (fmtFixed5 n).head? = some c := by
      rw [fmtFixed5, if_neg hneg, List.nil_append, hcc]; rfl
    rw [parseFloatLit, hhd, if_neg hne1, if_neg hne2, fmtFixed5, if_neg hneg,
      List.nil_append, parseUnsigned_body hfr, hsum]
    have habs : (n.natAbs : ℚ) = (n : ℚ) := by
      rw [Int.cast_natAbs, Int.cast_abs]
      rw [abs_of_nonneg (by exact_mod_cast not_lt.mp hneg : (0 : ℚ) ≤ (n : ℚ))]
    rw [habs]

theorem parseIntLit_intRepr (n : ℤ) : parseIntLit (intRepr n) = some n := by
  obtain ⟨c, cs, hcc, hcd⟩ := natRepr_head_digit n.natAbs
  have hall : (natRepr n.natAbs).all Char.isDigit = true :=
    List.all_eq_true.mpr fun x hx => natRepr_all_digits _ x hx
  have hne1 : ¬ (some c = some '-') :=
    fun h => isDigit_ne_dash hcd (Option.some.inj h)
  have hne2 : ¬ (some c = some '+') :=
    fun h => isDigit_ne_plus hcd (Option.some.inj h)
  by_cases hneg : n < 0
  · have hhd : (intRepr n).head? = some '-' := by rw [intRepr, if_pos hneg]; rfl
    have htl : (intRepr n).tail = natRepr n.natAbs := by
      rw [intRepr, if_pos hneg]; rfl
    rw [parseIntLit, hhd]
    rw [if_pos rfl, htl, if_pos ⟨natRepr_ne_nil _, hall⟩, natOfDigits_natRepr]
    congr 1
    omega
  · have hhd : (intRepr n).head? = some c := by
      rw [intRepr, if_neg hneg, hcc]; rfl
    rw [parseIntLit, hhd, if_neg hne1, if_neg hne2, intRepr, if_neg hneg,
      if_pos ⟨natRepr_ne_nil n.natAbs, hall⟩, natOfDigits_natRepr]
    congr 1
    omega

theorem roundHalfEven_intCast (m : ℤ) : roundHalfEven (m : ℚ) = m := by
  rw [roundHalfEven]
  simp only [Int.floor_intCast]
  rw [if_pos]
  rw [sub_self]
  norm_num

theorem round5_mul_pow (q : ℚ) :
    round5 q * 10 ^ 5 = (roundHalfEven (q * 10 ^ 5) : ℚ) := by
  rw [round5, div_mul_cancel₀]
  norm_num

theorem round5_idem (q : ℚ) : round5 (round5 q) = round5 q := by
  rw [round5, round5_mul_pow, roundHalfEven_intCast, round5]

theorem fmtArg_eq_fmtNum {v : Value} (h : v ≠ .VNone) :
    fmtArg v = .ok (fmtNum v) := by
  cases v with
  | VFloat q => rfl
  | VInt n => rfl
  | VNone => exact absurd rfl h

theorem intRepr_chars {n : ℤ} {c : Char} (h : c ∈ intRepr n) : numChar c := by
  rw [intRepr] at h
  by_cases hneg : n < 0
  · rw [if_pos hneg] at h
    rcases List.mem_cons.mp h with rfl | h
    · exact Or.inr (Or.inl rfl)
    · exact Or.inl (natRepr_all_digits _ c h)
  · rw [if_neg hneg] at h
    exact Or.inl (natRepr_all_digits _ c h)

theorem fmtFixed5_chars {m : ℤ} {c : Char} (h : c ∈ fmtFixed5 m) : numChar c := by
  rw [fmtFixed5] at h
  have hfr : m.natAbs % 10 ^ 5 < 10 ^ 5 := Nat.mod_lt _ (by norm_num)
  obtain ⟨hdig, -, -⟩ := fracRepr_spec hfr
  rcases List.mem_append.mp h with h1 | h2
  · rcases List.mem_append.mp h1 with hs | hi
    · by_cases hneg : m < 0
      · rw [if_pos hneg] at hs
        rcases List.mem_singleton.mp hs with rfl
        exact Or.inr (Or.inl rfl)
      · rw [if_neg hneg] at hs
        exact absurd hs (List.not_mem_nil c)
    · exact Or.inl (natRepr_all_digits _ c hi)
  · rcases List.mem_cons.mp h2 with rfl | h3
    · exact Or.inr (Or.inr rfl)
    · exact Or.inl (hdig c h3)

theorem fmtNum_chars {v : Value} {c : Char} (h : c ∈ fmtNum v) : numChar c := by
  cases v with
  | VFloat q => exact fmtFixed5_chars h
  | VInt n => exact intRepr_chars h
  | VNone => exact absurd h (List.not_mem_nil c)

theorem numChar_ne_space {c : Char} (h : numChar c) : c ≠ ' ' := by
  rcases h with h | h | h
  · exact fun hc => by subst hc; exact absurd h (by decide)
  · exact fun hc => by rw [h] at hc; exact absurd hc (by decide)
  · exact fun hc => by rw [h] at hc; exact absurd hc (by decide)

theorem numChar_ne_semi {c : Char} (h : numChar c) : c ≠ ';' := by
  rcases h with h | h | h
  · exact fun hc => by subst hc; exact absurd h (by decide)
  · exact fun hc => by rw [h] at hc; exact absurd hc (by decide)
  · exact fun hc => by rw [h] at hc; exact absurd hc (by decide)

theorem fmtNum_ne_nil {kind : ArgKind} {v : Value}
    (hm : kindMatches kind v = true) (hk : kind ≠ .kFlag) : fmtNum v ≠ [] := by
  cases kind with
  | kFlag => exact absurd rfl hk
  | kFloat =>
    cases v with
    | VFloat q =>
      rw [fmtNum, fmtFixed5]
      intro hcon
      rcases List.append_eq_nil.mp hcon with ⟨h1, h2⟩
      exact absurd (List.append_eq_nil.mp h1).2 (natRepr_ne_nil _)
    | VInt n => simp [kindMatches] at hm
    | VNone => simp [kindMatches] at hm
  | kInt =>
    cases v with
    | VInt n =>
      rw [fmtNum, intRepr]
      by_cases hneg : n < 0
      · rw [if_pos hneg]; simp
      · rw [if_neg hneg]; exact natRepr_ne_nil _
    | VFloat q => simp [kindMatches] at hm
    | VNone => simp [kindMatches] at hm

theorem catalog_wf : ∀ d ∈ gcodeCatalog, descrWF d := by decide

theorem catalog_get : ∀ d ∈ gcodeCatalog, GCodeDescr.get d.code = some d := by decide

theorem fmtArgList_eq {args : List (Char × Value)}
    (h : ∀ kv ∈ args, kv.2 ≠ .VNone) :
    fmtArgList args = .ok (argTokens args) := by
  induction args with
  | nil => rfl
  | cons kv t ih =>
    obtain ⟨k, v⟩ := kv
    rw [fmtArgList, fmtArg_eq_fmtNum (h (k, v) (by simp))]
    rw [ih (fun kv hkv => h kv (by simp [hkv]))]
    rfl

theorem str_shape {cmd : GCodeCommand} {code : List Char}
    (hcode : cmd.code = some code) (hne : code ≠ [])
    (h : ∀ kv ∈ cmd.args, kv.2 ≠ .VNone) (hc : cmd.comment = []) :
    cmd.str = .ok (code ++ argTokens cmd.args) := by
  rw [GCodeCommand.str, hcode, fmtArgList_eq h, hc]
  simp only [if_neg hne]
  simp
  rfl

theorem space_not_mem_token {k : Char} {v : Value} (hk : k ≠ ' ') :
    ' ' ∉ (k :: fmtNum v) := by
  intro h
  rcases List.mem_cons.mp h with h1 | h2
  · exact hk h1.symm
  · exact numChar_ne_space (fmtNum_chars h2) rfl

theorem splitOnChar_space_argTokens {args : List (Char × Value)}
    (hargs : ∀ kv ∈ args, kv.1 ≠ ' ') :
    ∀ p0 : List Char, ' ' ∉ p0 →
      splitOnChar ' ' (p0 ++ argTokens args) =
        p0 :: args.map (fun kv => kv.1 :: fmtNum kv.2) := by
  induction args with
  | nil =>
    intro p0 hp0
    rw [argTokens]
    simp only [List.map_nil, List.flatten_nil, List.append_nil]
    rw [splitOnChar_no_sep hp0]
  | cons kv t ih =>
    intro p0 hp0
    obtain ⟨k, v⟩ := kv
    have hstep : p0 ++ argTokens ((k, v) :: t) =
        p0 ++ ' ' :: ((k :: fmtNum v) ++ argTokens t) := rfl
    rw [hstep, splitOnChar_append _ hp0]
    rw [ih (fun kv hkv => hargs kv (by simp [hkv])) _
      (space_not_mem_token (hargs (k, v) (by simp)))]
    rfl

theorem find?_argTokens (a : Char) (args : List (Char × Value)) :
    (args.map (fun kv => kv.1 :: fmtNum kv.2)).find? (fun t => t.head? = some a) =
      (List.lookup a args).map (fun v => a :: fmtNum v) := by
  induction args with
  | nil => rfl
  | cons kv t ih =>
    obtain ⟨k, v⟩ := kv
    by_cases hak : a = k
    · subst hak
      rw [List.map_cons, List.find?_cons_of_pos _ (by simp)]
      simp [List.lookup]
    · rw [List.map_cons, List.find?_cons_of_neg _ (by simp [Ne.symm hak]), ih]
      simp [List.lookup, beq_false_of_ne hak]

theorem extractArgs_fmt (schemaArgs : List (Char × ArgKind))
    (args : List (Char × Value))
    (hv : ∀ ak ∈ schemaArgs, ∀ v, List.lookup ak.1 args = some v →
      kindMatches ak.2 v = true ∧ ak.2 ≠ .kFlag) :
    extractArgs schemaArgs (args.map (fun kv => kv.1 :: fmtNum kv.2)) =
      .ok (schemaRoundArgs schemaArgs args) := by
  induction schemaArgs with
  | nil => rfl
  | cons ak rest ih =>
    obtain ⟨a, kind⟩ := ak
    have ihrest := ih (fun bk hbk v hl => hv bk (by simp [hbk]) v hl)
    rw [extractArgs, find?_argTokens]
    cases hl : List.lookup a args with
    | none =>
      simp only [Option.map_none']
      rw [ihrest]
      simp [schemaRoundArgs, hl]
    | some v =>
      obtain ⟨hm, hk⟩ := hv (a, kind) (by simp) v hl
      have hnn := fmtNum_ne_nil hm hk
      simp only [Option.map_some', List.tail_cons, if_neg hnn]
      cases kind with
      | kFlag => exact absurd rfl hk
      | kFloat =>
        cases v with
        | VFloat q =>
          rw [parseValue]
          rw [show fmtNum (Value.VFloat q) = fmtFixed5 (roundHalfEven (q * 10 ^ 5))
            from rfl, parseFloatLit_fmtFixed5]
          rw [ihrest]
          simp [schemaRoundArgs, hl, roundVal, round5]
          rfl
        | VInt n => simp [kindMatches] at hm
        | VNone => simp [kindMatches] at hm
      | kInt =>
        cases v with
        | VInt n =>
          rw [parseValue]
          rw [show fmtNum (Value.VInt n) = intRepr n from rfl, parseIntLit_intRepr]
          rw [ihrest]
          simp [schemaRoundArgs, hl, roundVal]
          rfl
        | VFloat q => simp [kindMatches] at hm
        | VNone => simp [kindMatches] at hm

theorem semi_not_mem_argTokens {args : List (Char × Value)}
    (htok : ∀ kv ∈ args, kv.1 ≠ ';') : ';' ∉ argTokens args := by
  induction args with
  | nil => simp [argTokens]
  | cons kv t ih =>
    obtain ⟨k, v⟩ := kv
    intro hmem
    rw [show argTokens ((k, v) :: t) = ' ' :: k :: (fmtNum v ++ argTokens t)
      from rfl] at hmem
    rcases List.mem_cons.mp hmem with h | h
    · exact absurd h (by decide)
    rcases List.mem_cons.mp h with h | h
    · exact htok (k, v) (by simp) h.symm
    rcases List.mem_append.mp h with h | h
    · exact numChar_ne_semi (fmtNum_chars h) rfl
    · exact ih (fun kv hkv => htok kv (by simp [hkv])) h

theorem parse_format (descr : GCodeDescr) (hwf : descrWF descr)
    (hget : GCodeDescr.get descr.code = some descr)
    (args : List (Char × Value))
    (htok : ∀ kv ∈ args, kv.1 ≠ ' ' ∧ kv.1 ≠ ';')
    (hv : ∀ ak ∈ descr.arguments, ∀ v, List.lookup ak.1 args = some v →
      kindMatches ak.2 v = true ∧ ak.2 ≠ .kFlag) :
    GCodeCommand.parse (descr.code ++ argTokens args) =
      .ok ⟨some descr.code, schemaRoundArgs descr.arguments args, []⟩ := by
  obtain ⟨hcne, hgm, hsp, hnd, hksp⟩ := hwf
  obtain ⟨c0, crest, hcode⟩ := List.exists_cons_of_ne_nil hcne
  have hc0 : c0 = 'G' ∨ c0 = 'M' := by
    rcases hgm with h | h
    · left; rw [hcode] at h; exact Option.some.inj h
    · right; rw [hcode] at h; exact Option.some.inj h
  have hcond : ¬(c0 ≠ 'G' ∧ c0 ≠ 'M' ∧ c0 ≠ ';') := by
    rcases hc0 with rfl | rfl <;> simp
  have hsemi : ';' ∉ descr.code ++ argTokens args := by
    intro h
    rcases List.mem_append.mp h with h | h
    · exact (hsp ';' h).2 rfl
    · exact semi_not_mem_argTokens (fun kv hkv => (htok kv hkv).2) h
  have hsplit1 : splitOnChar ';' (descr.code ++ argTokens args) =
      [descr.code ++ argTokens args] := splitOnChar_no_sep hsemi
  have hsplit2 : splitOnChar ' ' (descr.code ++ argTokens args) =
      descr.code :: args.map (fun kv => kv.1 :: fmtNum kv.2) :=
    splitOnChar_space_argTokens (fun kv hkv => (htok kv hkv).1) _
      (fun h => (hsp ' ' h).1 rfl)
  have hfilter : (descr.code :: args.map (fun kv => kv.1 :: fmtNum kv.2)).filter
      (fun t => t ≠ []) = descr.code :: args.map (fun kv => kv.1 :: fmtNum kv.2) := by
    rw [List.filter_eq_self]
    intro t ht
    rcases List.mem_cons.mp ht with rfl | ht
    · simpa using hcne
    · obtain ⟨kv, hkv, rfl⟩ := List.mem_map.mp ht
      simp
  have hl : descr.code ++ argTokens args = c0 :: (crest ++ argTokens args) := by
    rw [hcode, List.cons_append]
  rw [hl] at hsplit1 hsplit2
  rw [hl]
  rw [GCodeCommand.parse]
  rw [if_neg hcond]
  rw [hsplit1]
  simp only [List.headD_cons, List.tail_cons, joinChar_nil, hsplit2, hfilter, hget,
    extractArgs_fmt descr.arguments args hv]
  rfl

theorem lookup_eq_none_of_not_mem {α β : Type} [BEq α] [LawfulBEq α]
    {a : α} {l : List (α × β)} (h : a ∉ l.map Prod.fst) :
    List.lookup a l = none := by
  induction l with
  | nil => rfl
  | cons kv t ih =>
    simp only [List.map_cons, List.mem_cons, not_or] at h
    rw [List.lookup, beq_false_of_ne h.1]
    exact ih h.2

theorem lookup_of_mem_nodup {α β : Type} [BEq α] [LawfulBEq α]
    {l : List (α × β)} (hnd : (l.map Prod.fst).Nodup) {a : α} {b : β}
    (hmem : (a, b) ∈ l) : List.lookup a l = some b := by
  induction l with
  | nil => exact absurd hmem (List.not_mem_nil _)
  | cons kv t ih =>
    obtain ⟨k, v⟩ := kv
    simp only [List.map_cons, List.nodup_cons] at hnd
    rcases List.mem_cons.mp hmem with h | h
    · obtain ⟨rfl, rfl⟩ := Prod.mk.injEq .. ▸ h
      rw [List.lookup, beq_self_eq_true]
    · have hne : a ≠ k := by
        rintro rfl
        exact hnd.1 (List.mem_map.mpr ⟨(a, b), h, rfl⟩)
      rw [List.lookup, beq_false_of_ne hne]
      exact ih hnd.2 h

theorem assocSet_append {k : Char} {v : Value} {l : List (Char × Value)}
    (h : k ∉ l.map Prod.fst) : assocSet k v l = l ++ [(k, v)] := by
  induction l with
  | nil => rfl
  | cons kv t ih =>
    obtain ⟨k', v'⟩ := kv
    simp only [List.map_cons, List.mem_cons, not_or] at h
    rw [assocSet, if_neg (fun hc => h.1 hc.symm)]
    rw [ih h.2]
    rfl

theorem newArgs_eq (descr : GCodeDescr) :
    ∀ (kwargs acc : List (Char × Value)),
    (∀ kv ∈ kwargs, ∃ kind, List.lookup kv.1 descr.arguments = some kind ∧
      kindMatches kind kv.2 = true) →
    ((acc ++ kwargs).map Prod.fst).Nodup →
    newArgs descr acc kwargs = .ok (acc ++ kwargs) := by
  intro kwargs
  induction kwargs with
  | nil => intro acc _ _; simp [newArgs]
  | cons kv rest ih =>
    intro acc hval hnd
    obtain ⟨k, v⟩ := kv
    obtain ⟨kind, hlk, hm⟩ := hval (k, v) (by simp)
    rw [newArgs]
    simp only [hlk, hm, if_true]
    have hknotin : k ∉ acc.map Prod.fst := by
      intro hmem
      have : ¬ ((acc ++ (k, v) :: rest).map Prod.fst).Nodup := by
        simp only [List.map_append, List.map_cons]
        intro hn
        have := (List.nodup_append.mp hn).2.2
        exact this hmem (by simp)
      exact this hnd
    rw [assocSet_append hknotin]
    have hnd' : (((acc ++ [(k, v)]) ++ rest).map Prod.fst).Nodup := by
      simpa [List.append_assoc] using hnd
    rw [ih (acc ++ [(k, v)]) (fun kv hkv => hval kv (by simp [hkv])) hnd']
    simp

theorem new_eq (descr : GCodeDescr) (comment : List Char)
    (kwargs : List (Char × Value))
    (hval : ∀ kv ∈ kwargs, ∃ kind, List.lookup kv.1 descr.arguments = some kind ∧
      kindMatches kind kv.2 = true)
    (hnd : (kwargs.map Prod.fst).Nodup) :
    GCodeCommand.new descr comment kwargs = .ok ⟨some descr.code, kwargs, comment⟩ := by
  rw [GCodeCommand.new, newArgs_eq descr kwargs [] hval (by simpa using hnd)]
  rfl

theorem roundVal_idem (v : Value) : roundVal (roundVal v) = roundVal v := by
  cases v with
  | VFloat q => simp [roundVal, round5_idem]
  | VInt n => rfl
  | VNone => rfl

theorem roundVal_ne_none {kind : ArgKind} {v : Value}
    (hm : kindMatches kind v = true) (hk : kind ≠ .kFlag) :
    v ≠ .VNone ∧ roundVal v ≠ .VNone ∧ kindMatches kind (roundVal v) = true := by
  cases kind with
  | kFlag => exact absurd rfl hk
  | kFloat =>
    cases v with
    | VFloat q => exact ⟨by simp, by simp [roundVal], by simp [roundVal, kindMatches]⟩
    | VInt n => simp [kindMatches] at hm
    | VNone => simp [kindMatches] at hm
  | kInt =>
    cases v with
    | VInt n => exact ⟨by simp, by simp [roundVal], by simp [roundVal, kindMatches]⟩
    | VFloat q => simp [kindMatches] at hm
    | VNone => simp [kindMatches] at hm

theorem lookup_schemaRoundArgs_none {schemaArgs : List (Char × ArgKind)}
    {a : Char} (h : a ∉ schemaArgs.map Prod.fst) (args : List (Char × Value)) :
    List.lookup a (schemaRoundArgs schemaArgs args) = none := by
  induction schemaArgs with
  | nil => rfl
  | cons bk t ih =>
    obtain ⟨b, kb⟩ := bk
    simp only [List.map_cons, List.mem_cons, not_or] at h
    rw [schemaRoundArgs, List.filterMap_cons]
    cases hl : List.lookup b args with
    | none => exact ih h.2
    | some v =>
      simp only [Option.map_some']
      rw [List.lookup, beq_false_of_ne h.1]
      exact ih h.2

theorem lookup_schemaRoundArgs {schemaArgs : List (Char × ArgKind)}
    (hnd : (schemaArgs.map Prod.fst).Nodup) {a : Char} {kind : ArgKind}
    (hmem : (a, kind) ∈ schemaArgs) (args : List (Char × Value)) :
    List.lookup a (schemaRoundArgs schemaArgs args) =
      (List.lookup a args).map roundVal := by
  induction schemaArgs with
  | nil => exact absurd hmem (List.not_mem_nil _)
  | cons bk t ih =>
    obtain ⟨b, kb⟩ := bk
    simp only [List.map_cons, List.nodup_cons] at hnd
    rw [schemaRoundArgs, List.filterMap_cons]
    rcases List.mem_cons.mp hmem with h | h
    · obtain ⟨rfl, rfl⟩ := Prod.mk.injEq .. ▸ h
      cases hl : List.lookup a args with
      | none =>
        exact lookup_schemaRoundArgs_none (fun hm => hnd.1 hm) args
      | some v =>
        simp only [Option.map_some']
        rw [List.lookup, beq_self_eq_true]
    · have hne : a ≠ b := by
        rintro rfl
        exact hnd.1 (List.mem_map.mpr ⟨(a, kind), h, rfl⟩)
      cases hl : List.lookup b args with
      | none => exact ih hnd.2 h
      | some v =>
        simp only [Option.map_some']
        rw [List.lookup, beq_false_of_ne hne]
        exact ih hnd.2 h

theorem mem_keys_of_lookup {α β : Type} [BEq α] [LawfulBEq α]
    {a : α} {b : β} {l : List (α × β)} (h : List.lookup a l = some b) :
    a ∈ l.map Prod.fst := by
  induction l with
  | nil => cases h
  | cons kv t ih =>
    rw [List.lookup] at h
    cases hc : a == kv.1 with
    | true =>
      have := eq_of_beq hc
      simp [this]
    | false =>
      rw [hc] at h
      simp only [List.map_cons, List.mem_cons]
      exact Or.inr (ih h)

theorem mem_of_lookup {α β : Type} [BEq α] [LawfulBEq α]
    {a : α} {b : β} {l : List (α × β)} (h : List.lookup a l = some b) :
    (a, b) ∈ l := by
  induction l with
  | nil => cases h
  | cons kv t ih =>
    rw [List.lookup] at h
    cases hc : a == kv.1 with
    | true =>
      rw [hc] at h
      have h1 := eq_of_beq hc
      have h2 := Option.some.inj h
      simp [h1, ← h2]
    | false =>
      rw [hc] at h
      exact List.mem_cons.mpr (Or.inr (ih h))

theorem mem_schemaRoundArgs {schemaArgs : List (Char × ArgKind)}
    {args : List (Char × Value)} {kv : Char × Value}
    (h : kv ∈ schemaRoundArgs schemaArgs args) :
    ∃ ak ∈ schemaArgs, ∃ v, List.lookup ak.1 args = some v ∧
      kv = (ak.1, roundVal v) := by
  obtain ⟨ak, hak, hmap⟩ := List.mem_filterMap.mp h
  cases hl : List.lookup ak.1 args with
  | none => rw [hl] at hmap; cases hmap
  | some v =>
    rw [hl] at hmap
    exact ⟨ak, hak, v, hl, (Option.some.inj hmap).symm⟩

theorem validNumArgs_elim {descr : GCodeDescr} {args : List (Char × Value)}
    (hva : validNumArgs descr args) {kv : Char × Value} (hkv : kv ∈ args) :
    ∃ kind, List.lookup kv.1 descr.arguments = some kind ∧
      kindMatches kind kv.2 = true ∧ kind ≠ .kFlag := by
  have h := hva.2 kv hkv
  cases hl : List.lookup kv.1 descr.arguments with
  | none => rw [hl] at h; cases h
  | some kind =>
    rw [hl] at h
    simp only [Option.any_some, Bool.and_eq_true, Bool.not_eq_true',
      beq_eq_false_iff_ne, ne_eq] at h
    exact ⟨kind, rfl, h.1, h.2⟩

theorem filterMap_eq_of_forall {α β : Type} {f g : α → Option β} :
    ∀ {l : List α}, (∀ a ∈ l, f a = g a) → l.filterMap f = l.filterMap g := by
  intro l
  induction l with
  | nil => intro _; rfl
  | cons a t ih =>
    intro h
    rw [List.filterMap_cons, List.filterMap_cons, h a (by simp),
      ih (fun x hx => h x (by simp [hx]))]

theorem schemaRoundArgs_idem {schemaArgs : List (Char × ArgKind)}
    (hnd : (schemaArgs.map Prod.fst).Nodup) (args : List (Char × Value)) :
    schemaRoundArgs schemaArgs (schemaRoundArgs schemaArgs args) =
      schemaRoundArgs schemaArgs args := by
  rw [schemaRoundArgs]
  conv_rhs => rw [schemaRoundArgs]
  apply filterMap_eq_of_forall
  intro ak hak
  rw [lookup_schemaRoundArgs hnd (show (ak.1, ak.2) ∈ schemaArgs from hak) args]
  cases hl : List.lookup ak.1 args with
  | none => rfl
  | some v => simp [roundVal_idem]

theorem build_format_parse (descr : GCodeDescr) (hmem : descr ∈ gcodeCatalog)
    (args : List (Char × Value)) (hva : validNumArgs descr args) :
    GCodeCommand.new descr [] args = .ok ⟨some descr.code, args, []⟩ ∧
    ∃ s1 s2,
      GCodeCommand.str ⟨some descr.code, args, []⟩ = .ok s1 ∧
      GCodeCommand.parse s1 =
        .ok ⟨some descr.code, schemaRoundArgs descr.arguments args, []⟩ ∧
      GCodeCommand.str
        ⟨some descr.code, schemaRoundArgs descr.arguments args, []⟩ = .ok s2 ∧
      GCodeCommand.parse s2 =
        .ok ⟨some descr.code, schemaRoundArgs descr.arguments args, []⟩ := by
  have hwf := catalog_wf descr hmem
  have hget := catalog_get descr hmem
  obtain ⟨hcne, hgm, hsp, hnd, hksp⟩ := hwf
  have hwf' : descrWF descr := ⟨hcne, hgm, hsp, hnd, hksp⟩
  have hv : ∀ ak ∈ descr.arguments, ∀ v, List.lookup ak.1 args = some v →
      kindMatches ak.2 v = true ∧ ak.2 ≠ .kFlag := by
    intro ak hak v hl
    obtain ⟨kind', hlk', hm', hk'⟩ := validNumArgs_elim hva (mem_of_lookup hl)
    have : kind' = ak.2 := by
      have h2 := lookup_of_mem_nodup hnd (show (ak.1, ak.2) ∈ descr.arguments from hak)
      rw [hlk'] at h2
      exact Option.some.inj h2
    exact ⟨this ▸ hm', this ▸ hk'⟩
  refine ⟨?_, ?_⟩
  · exact new_eq descr [] args
      (fun kv hkv => by
        obtain ⟨kind, hlk, hm, -⟩ := validNumArgs_elim hva hkv
        exact ⟨kind, hlk, hm⟩) hva.1
  · refine ⟨descr.code ++ argTokens args,
      descr.code ++ argTokens (schemaRoundArgs descr.arguments args), ?_, ?_, ?_, ?_⟩
    · exact str_shape rfl hcne
        (fun kv hkv => by
          obtain ⟨kind, hlk, hm, hk⟩ := validNumArgs_elim hva hkv
          exact (roundVal_ne_none hm hk).1) rfl
    · exact parse_format descr hwf' hget args
        (fun kv hkv => by
          obtain ⟨kind, hlk, -, -⟩ := validNumArgs_elim hva hkv
          exact hksp kv.1 (mem_keys_of_lookup hlk)) hv
    · exact str_shape rfl hcne
        (fun kv hkv => by
          obtain ⟨ak, hak, v, hl, rfl⟩ := mem_schemaRoundArgs hkv
          obtain ⟨hm, hk⟩ := hv ak hak v hl
          exact (roundVal_ne_none hm hk).2.1) rfl
    · have hres := parse_format descr hwf' hget (schemaRoundArgs descr.arguments args)
        (fun kv hkv => by
          obtain ⟨ak, hak, v, hl, rfl⟩ := mem_schemaRoundArgs hkv
          exact hksp ak.1 (List.mem_map.mpr ⟨ak, hak, rfl⟩))
        (fun ak hak v' hl' => by
          rw [lookup_schemaRoundArgs hnd
            (show (ak.1, ak.2) ∈ descr.arguments from hak) args] at hl'
          cases hl : List.lookup ak.1 args with
          | none => rw [hl] at hl'; cases hl'
          | some v =>
            rw [hl] at hl'
            obtain ⟨hm, hk⟩ := hv ak hak v hl
            have hv' : v' = roundVal v := (Option.some.inj hl').symm
            subst hv'
            exact ⟨(roundVal_ne_none hm hk).2.2, hk⟩)
      rw [hres, schemaRoundArgs_idem hnd]

theorem runProcessors_nil (d : HeightDetector) (head : PrinterHead) (m : Marker) :
    runProcessors [] d head m = .ok m := rfl

theorem processLines_shape (ps : List Processor) :
    ∀ (ls : List (List Char)) (st : PState) (lay : Option ℤ) (st' : PState)
      (out : List (List Char)),
      processLines ps st lay ls = .ok (st', out) →
      ∃ trips : List (List (List Char) × List Char × List (List Char)),
        trips.length = ls.length ∧
        out = (trips.map tripLines).flatten ∧
        (ps = [] → out = ls) := by
  intro ls
  induction ls with
  | nil =>
    intro st lay st' out h
    rw [processLines] at h
    obtain ⟨-, rfl⟩ : st = st' ∧ [] = out := by
      have := Except.ok.inj h
      exact ⟨congrArg Prod.fst this, congrArg Prod.snd this⟩
    exact ⟨[], rfl, rfl, fun _ => rfl⟩
  | cons l rest ih =>
    intro st lay st' out h
    simp only [processLines] at h
    cases hm : runProcessors ps
        (st.detector.handle l (st.head.handle l) (updateLayer lay l))
        (st.head.handle l) (Marker.mk' l) with
    | error e => rw [hm] at h; cases h
    | ok m =>
      rw [hm] at h
      cases hrest : processLines ps
          ⟨st.head.handle l,
            st.detector.handle l (st.head.handle l) (updateLayer lay l)⟩
          (updateLayer lay l) rest with
      | error e => rw [hrest] at h; cases h
      | ok pr =>
        obtain ⟨st2, out2⟩ := pr
        rw [hrest] at h
        obtain ⟨rfl, rfl⟩ : st2 = st' ∧
            (m.lines_before ++ m.line :: m.lines_after) ++ out2 = out := by
          have := Except.ok.inj h
          exact ⟨congrArg Prod.fst this, congrArg Prod.snd this⟩
        obtain ⟨trips, hlen, hout, hnil⟩ := ih _ _ _ _ hrest
        refine ⟨(m.lines_before, m.line, m.lines_after) :: trips, by simp [hlen], ?_, ?_⟩
        · rw [List.map_cons, List.flatten_cons, hout]
          rfl
        · intro hps
          subst hps
          have hmm : m = Marker.mk' l := Except.ok.inj hm.symm
          subst hmm
          rw [hnil rfl]
          rfl

theorem processLines_no_procs :
    ∀ (ls : List (List Char)) (st : PState) (lay : Option ℤ),
      ∃ st', processLines [] st lay ls = .ok (st', ls) := by
  intro ls
  induction ls with
  | nil => intro st lay; exact ⟨st, rfl⟩
  | cons l rest ih =>
    intro st lay
    obtain ⟨st', hst'⟩ := ih
      ⟨st.head.handle l, st.detector.handle l (st.head.handle l) (updateLayer lay l)⟩
      (updateLayer lay l)
    refine ⟨st', ?_⟩
    simp only [processLines, runProcessors]
    rw [hst']
    rfl

theorem processBlock_no_procs (st : PState) (b : List Char) :
    ∃ st', processBlock [] st b =
      .ok (st', joinChar '\n' (keptLines b) ++ ['\n']) := by
  obtain ⟨st', hst'⟩ := processLines_no_procs (keptLines b) st none
  refine ⟨st', ?_⟩
  rw [processBlock, hst']
  rfl

theorem process_data_no_procs :
    ∀ (bs : List (List Char)) (st : PState),
      ∃ st', process_data [] st bs =
        .ok (st', bs.map (fun b => joinChar '\n' (keptLines b) ++ ['\n'])) := by
  intro bs
  induction bs with
  | nil => intro st; exact ⟨st, rfl⟩
  | cons b rest ih =>
    intro st
    obtain ⟨st1, hst1⟩ := processBlock_no_procs st b
    obtain ⟨st2, hst2⟩ := ih st1
    refine ⟨st2, ?_⟩
    rw [process_data, hst1]
    show (do
      let r ← process_data [] st1 rest
      Except.ok (r.1, (joinChar '\n' (keptLines b) ++ ['\n']) :: r.2)) =
      Except.ok (st2, List.map (fun b => joinChar '\n' (keptLines b) ++ ['\n']) (b :: rest))
    rw [hst2]
    rfl

theorem process_data_shape (ps : List Processor) :
    ∀ (bs : List (List Char)) (st st' : PState) (out : List (List Char)),
      process_data ps st bs = .ok (st', out) →
      out.length = bs.length ∧
      List.Forall₂ (fun b nb =>
        ∃ trips : List (List (List Char) × List Char × List (List Char)),
          trips.length = (keptLines b).length ∧
          nb = joinChar '\n' ((trips.map tripLines).flatten) ++ ['\n'] ∧
          (ps = [] → nb = joinChar '\n' (keptLines b) ++ ['\n'])) bs out := by
  intro bs
  induction bs with
  | nil =>
    intro st st' out h
    rw [process_data] at h
    obtain rfl : [] = out := congrArg Prod.snd (Except.ok.inj h)
    exact ⟨rfl, List.Forall₂.nil⟩
  | cons b rest ih =>
    intro st st' out h
    rw [process_data] at h
    cases hb : processBlock ps st b with
    | error e => rw [hb] at h; cases h
    | ok pr =>
      obtain ⟨st1, nb⟩ := pr
      rw [hb] at h
      have h' : (do
          let r ← process_data ps st1 rest
          Except.ok (r.1, nb :: r.2)) = Except.ok (st', out) := h
      cases hrest : process_data ps st1 rest with
      | error e => rw [hrest] at h'; cases h'
      | ok pr2 =>
        obtain ⟨st2, outr⟩ := pr2
        rw [hrest] at h'
        obtain ⟨hsteq, rfl⟩ : st2 = st' ∧ nb :: outr = out := by
          have := Except.ok.inj h'
          exact ⟨congrArg Prod.fst this, congrArg Prod.snd this⟩
        subst hsteq
        obtain ⟨hlen, hfa⟩ := ih st1 _ outr hrest
        rw [processBlock] at hb
        cases hpl : processLines ps st none (keptLines b) with
        | error e => rw [hpl] at hb; cases hb
        | ok plr =>
          obtain ⟨plst, plout⟩ := plr
          rw [hpl] at hb
          obtain ⟨-, rfl⟩ : plst = st1 ∧ joinChar '\n' plout ++ ['\n'] = nb := by
            have := Except.ok.inj hb
            exact ⟨congrArg Prod.fst this, congrArg Prod.snd this⟩
          obtain ⟨trips, htlen, hflat, hnil⟩ :=
            processLines_shape ps (keptLines b) st none plst plout hpl
          refine ⟨by simp [hlen], List.Forall₂.cons ⟨trips, htlen, by rw [hflat],
            fun hps => by rw [hnil hps]⟩ hfa⟩

theorem floor_add_div_eq_ceil {r s : ℤ} (hs : 0 < s) :
    ⌊((r : ℚ) + s - 1) / s⌋ = ⌈(r : ℚ) / s⌉ := by
  have hsq : (0 : ℚ) < (s : ℚ) := by exact_mod_cast hs
  have h2 : (r : ℚ) / s ≤ (⌈(r : ℚ) / s⌉ : ℚ) := Int.le_ceil _
  have h1 : ((⌈(r : ℚ) / s⌉ : ℚ)) < (r : ℚ) / s + 1 := Int.ceil_lt_add_one _
  generalize hn : ⌈(r : ℚ) / s⌉ = n at h1 h2 ⊢
  have h3 : (n : ℚ) * s < (r : ℚ) + s := by
    have hlt : (n : ℚ) - 1 < (r : ℚ) / s := by linarith
    have hx := (lt_div_iff₀ hsq).mp hlt
    linarith
  have h4 : (r : ℚ) ≤ (n : ℚ) * s := (div_le_iff₀ hsq).mp h2
  have h3z : n * s < r + s := by exact_mod_cast h3
  have h4z : r ≤ n * s := by exact_mod_cast h4
  have h3z' : n * s ≤ r + s - 1 := by omega
  have h3q : (n : ℚ) * s ≤ (r : ℚ) + s - 1 := by exact_mod_cast h3z'
  rw [Int.floor_eq_iff]
  constructor
  · rw [le_div_iff₀ hsq]
    linarith
  · rw [div_lt_iff₀ hsq]
    nlinarith

theorem normalize_nonneg {c o s : ℚ} (hs : 1 ≤ s) :
    0 ≤ HeightDetector.normalize c o s := by
  rw [HeightDetector.normalize]
  apply Int.floor_nonneg.mpr
  have hr : (0 : ℚ) ≤ max 0 (c - o + 1) := le_max_left _ _
  have hs0 : (0 : ℚ) < s := lt_of_lt_of_le one_pos hs
  apply div_nonneg _ (le_of_lt hs0)
  linarith

theorem parseValue_matches {kind : ArgKind} {gv : Option (List Char)} {v : Value}
    (h : parseValue kind gv = .ok v) : kindMatches kind v = true := by
  cases kind with
  | kFlag =>
    rw [parseValue] at h
    rw [← Except.ok.inj h]
    rfl
  | kFloat =>
    cases gv with
    | none => cases h
    | some s =>
      rw [parseValue] at h
      cases hp : parseFloatLit s with
      | none => rw [hp] at h; cases h
      | some q =>
        rw [hp] at h
        rw [← Except.ok.inj h]
        rfl
  | kInt =>
    cases gv with
    | none => cases h
    | some s =>
      rw [parseValue] at h
      cases hp : parseIntLit s with
      | none => rw [hp] at h; cases h
      | some m =>
        rw [hp] at h
        rw [← Except.ok.inj h]
        rfl

theorem extractArgs_kinds (schemaArgs : List (Char × ArgKind)) :
    ∀ (toks : List (List Char)) (args : List (Char × Value)),
      extractArgs schemaArgs toks = .ok args →
      ∀ kv ∈ args, ∃ kind, (kv.1, kind) ∈ schemaArgs ∧
        kindMatches kind kv.2 = true := by
  induction schemaArgs with
  | nil =>
    intro toks args h kv hkv
    rw [extractArgs] at h
    rw [← Except.ok.inj h] at hkv
    cases hkv
  | cons ak rest ih =>
    intro toks args h kv hkv
    obtain ⟨a, kind⟩ := ak
    rw [extractArgs] at h
    cases hf : toks.find? (fun t => t.head? = some a) with
    | none =>
      rw [hf] at h
      have h' : extractArgs rest toks = .ok args := h
      obtain ⟨k, hk1, hk2⟩ := ih toks args h' kv hkv
      exact ⟨k, List.mem_cons.mpr (Or.inr hk1), hk2⟩
    | some t =>
      rw [hf] at h
      have h' : (do
          let v ← parseValue kind (if t.tail = [] then none else some t.tail)
          let r ← extractArgs rest toks
          Except.ok ((a, v) :: r)) = .ok args := h
      cases hv : parseValue kind (if t.tail = [] then none else some t.tail) with
      | error e => rw [hv] at h'; cases h'
      | ok v =>
        rw [hv] at h'
        cases hr : extractArgs rest toks with
        | error e => rw [hr] at h'; cases h'
        | ok args' =>
          rw [hr] at h'
          rw [← Except.ok.inj h'] at hkv
          rcases List.mem_cons.mp hkv with rfl | hmem
          · exact ⟨kind, List.mem_cons.mpr (Or.inl rfl), parseValue_matches hv⟩
          · obtain ⟨k, hk1, hk2⟩ := ih toks args' hr kv hmem
            exact ⟨k, List.mem_cons.mpr (Or.inr hk1), hk2⟩

theorem parse_args_kinds {line : List Char} {cmd : GCodeCommand}
    (h : GCodeCommand.parse line = .ok cmd) {descr : GCodeDescr}
    (hc : cmd.command = some descr) :
    ∀ kv ∈ cmd.args, ∃ kind, (kv.1, kind) ∈ descr.arguments ∧
      kindMatches kind kv.2 = true := by
  rcases line with _ | ⟨c0, lrest⟩
  · rw [GCodeCommand.parse] at h
    rw [← Except.ok.inj h] at hc
    cases hc
  · simp only [GCodeCommand.parse] at h
    split at h
    · cases h
    · split at h
      · rw [← Except.ok.inj h] at hc
        cases hc
      · rename_i code resttoks heq
        split at h
        · cases h
        · rename_i d hget
          cases hextract : extractArgs d.arguments resttoks with
          | error e => rw [hextract] at h; cases h
          | ok args' =>
            rw [hextract] at h
            have hcmd : cmd = ⟨some code, args',
                joinChar ' ' (splitOnChar ';' (c0 :: lrest)).tail⟩ :=
              (Except.ok.inj h).symm
            subst hcmd
            have hdd : d = descr := by
              have hc' : GCodeDescr.get code = some descr := hc
              rw [hget] at hc'
              exact Option.some.inj hc'
            subst hdd
            exact extractArgs_kinds d.arguments resttoks args' hextract

theorem str_ok_of_args {cmd : GCodeCommand}
    (h : ∀ kv ∈ cmd.args, kv.2 ≠ .VNone) : ∃ s, cmd.str = .ok s := by
  rw [GCodeCommand.str, fmtArgList_eq h]
  exact ⟨_, rfl⟩

theorem G1_all_float : ∀ p ∈ LINEAR_MOTION_EXTRUDED_COMMAND.arguments,
    p.2 = ArgKind.kFloat := by decide

theorem parse_G1_args_float {line : List Char} {cmd : GCodeCommand}
    (h : GCodeCommand.parse line = .ok cmd)
    (hc : cmd.command = some LINEAR_MOTION_EXTRUDED_COMMAND) :
    ∀ kv ∈ cmd.args, ∃ q, kv.2 = Value.VFloat q := by
  intro kv hkv
  obtain ⟨kind, hk1, hk2⟩ := parse_args_kinds h hc kv hkv
  have hkf : kind = ArgKind.kFloat := G1_all_float (kv.1, kind) hk1
  subst hkf
  cases hval : kv.2 with
  | VFloat q => exact ⟨q, rfl⟩
  | VInt n => rw [hval] at hk2; simp [kindMatches] at hk2
  | VNone => rw [hval] at hk2; simp [kindMatches] at hk2

theorem calculate_step_nonneg {d : HeightDetector} {line : List Char}
    {head : PrinterHead} {L raw : ℤ} {variant : HDVariant}
    (hs : 1 ≤ d.step_size) (h0 : 0 ≤ d.current_step)
    (hcs : d.calculate_step line head L = (raw, variant)) : 0 ≤ raw := by
  rw [HeightDetector.calculate_step] at hcs
  cases hv : d.variant with
  | layer =>
    rw [hv] at hcs
    have hcs' : (HeightDetector.normalize (L : ℚ) d.offset d.step_size,
        HDVariant.layer) = (raw, variant) := hcs
    have : HeightDetector.normalize (L : ℚ) d.offset d.step_size = raw :=
      congrArg Prod.fst hcs'
    rw [← this]
    exact normalize_nonneg hs
  | mm last_z =>
    rw [hv] at hcs
    have hcs' : (if head.z ≠ last_z
        then (HeightDetector.normalize head.z d.offset d.step_size, HDVariant.mm head.z)
        else (d.current_step, HDVariant.mm last_z)) = (raw, variant) := hcs
    by_cases hz : head.z ≠ last_z
    · rw [if_pos hz] at hcs'
      have : HeightDetector.normalize head.z d.offset d.step_size = raw :=
        congrArg Prod.fst hcs'
      rw [← this]
      exact normalize_nonneg hs
    · rw [if_neg hz] at hcs'
      have : d.current_step = raw := congrArg Prod.fst hcs'
      rw [← this]
      exact h0

theorem handle_linear_motion_state (r : Retraction) (cmd : GCodeCommand) :
    (r.handle_linear_motion cmd).state = r.state ∨
    ((r.handle_linear_motion cmd).state = .RETRACTING ∨
      (r.handle_linear_motion cmd).state = .PRIMING) := by
  simp only [Retraction.handle_linear_motion]
  repeat' split
  all_goals first
    | (left; rfl)
    | (right; left; rfl)
    | (right; right; rfl)

theorem head_hlm_retraction (h : PrinterHead) (args : List (Char × Value)) :
    (h.handle_linear_motion args).retraction = h.retraction := by
  rw [PrinterHead.handle_linear_motion]
  repeat' split
  all_goals rfl

theorem head_hst_retraction (h : PrinterHead) (args : List (Char × Value)) :
    (h.handle_set_hotend_temp args).retraction = h.retraction := by
  rw [PrinterHead.handle_set_hotend_temp]
  split
  all_goals rfl

theorem handle_new_line_e (r : Retraction) : r.handle_new_line.e = r.e := by
  rw [Retraction.handle_new_line]
  repeat' split
  all_goals rfl

theorem hlm_state_of_E_eq (r : Retraction) (cmd : GCodeCommand)
    (hne : cmd.command = some LINEAR_MOTION_EXTRUDED_COMMAND →
      assocHas 'E' cmd.args = true → assocHas 'X' cmd.args = false →
      assocHas 'Y' cmd.args = false → assocHas 'Z' cmd.args = false →
      ((List.lookup 'E' cmd.args).getD .VNone).toQ = r.e) :
    (r.handle_linear_motion cmd).state = r.state := by
  simp only [Retraction.handle_linear_motion]
  split
  case isTrue hc =>
    split
    case isTrue hcond =>
      obtain ⟨⟨hx, hy, hz⟩, hE⟩ := hcond
      have heq := hne hc hE (by simpa using hx) (by simpa using hy) (by simpa using hz)
      rw [if_pos hE]
      rw [show (r.update_e ((List.lookup 'E' cmd.args).getD .VNone).toQ).last_e = r.e
        from rfl]
      rw [show (r.update_e ((List.lookup 'E' cmd.args).getD .VNone).toQ).e =
        ((List.lookup 'E' cmd.args).getD .VNone).toQ from rfl]
      rw [heq]
      rw [if_neg (lt_irrefl r.e), if_neg (lt_irrefl r.e)]
      rfl
    case isFalse =>
      split
      · rfl
      · rfl
  case isFalse => rfl

theorem handle_state_no_trigger (h : PrinterHead) (l : List Char)
    (ht : ¬ lineTriggers h l) :
    (h.handle l).retraction.state = h.retraction.handle_new_line.state := by
  cases hp : GCodeCommand.parse l with
  | error e =>
    have hred : h.handle l = { h with retraction := h.retraction.handle_new_line
        } := by
      simp only [PrinterHead.handle, hp]
    rw [hred]
  | ok cmd =>
    have hred : h.handle l = ({ h with retraction := h.retraction.handle_new_line
        } : PrinterHead).handle_parsed cmd := by
      simp only [PrinterHead.handle, hp]
    rw [hred, PrinterHead.handle_parsed]
    by_cases hmot : cmd.command = some LINEAR_MOTION_COMMAND ∨
        cmd.command = some LINEAR_MOTION_EXTRUDED_COMMAND
    · rw [if_pos hmot]
      show ((({ h with retraction := h.retraction.handle_new_line
          } : PrinterHead).handle_linear_motion cmd.args).retraction.handle_linear_motion
          cmd).state = h.retraction.handle_new_line.state
      rw [head_hlm_retraction]
      apply hlm_state_of_E_eq
      intro hc hE hX hY hZ
      rw [show ({ h with retraction := h.retraction.handle_new_line
        } : PrinterHead).retraction = h.retraction.handle_new_line from rfl]
      rw [handle_new_line_e]
      by_contra hcon
      exact ht ⟨cmd, hp, hc, hE, hX, hY, hZ, hcon⟩
    · rw [if_neg hmot]
      by_cases htemp : cmd.command = some SET_HOTENT_TEMP_COMMAND
      · rw [if_pos htemp]
        show (({ h with retraction := h.retraction.handle_new_line
            } : PrinterHead).handle_set_hotend_temp cmd.args).retraction.state =
          h.retraction.handle_new_line.state
        rw [head_hst_retraction]
      · rw [if_neg htemp]

theorem mem_assocSet {kv : Char × Value} {k : Char} {v : Value} :
    ∀ {l : List (Char × Value)}, kv ∈ assocSet k v l → kv = (k, v) ∨ kv ∈ l := by
  intro l
  induction l with
  | nil =>
    intro h
    rw [assocSet] at h
    rcases List.mem_singleton.mp h with rfl
    exact Or.inl rfl
  | cons p t ih =>
    intro h
    obtain ⟨k', v'⟩ := p
    rw [assocSet] at h
    by_cases hk : k' = k
    · rw [if_pos hk] at h
      rcases List.mem_cons.mp h with rfl | ht
      · exact Or.inl (by rw [hk])
      · exact Or.inr (List.mem_cons.mpr (Or.inr ht))
    · rw [if_neg hk] at h
      rcases List.mem_cons.mp h with rfl | ht
      · exact Or.inr (List.mem_cons.mpr (Or.inl rfl))
      · rcases ih ht with h1 | h2
        · exact Or.inl h1
        · exact Or.inr (List.mem_cons.mpr (Or.inr h2))

theorem handle_some_fields (d : HeightDetector) (line : List Char)
    (head : PrinterHead) (l raw : ℤ) (variant : HDVariant)
    (hcs : ({ d with just_reached_new_step := false } : HeightDetector).calculate_step
      line head l = (raw, variant)) :
    d.handle line head (some l) =
      { d with
        just_reached_new_step := decide (min raw d.count ≠ d.current_step),
        current_step := min raw d.count,
        variant := variant } := by
  have hgoal : d.handle line head (some l) =
      (match ({ d with just_reached_new_step := false
          } : HeightDetector).calculate_step line head l with
       | (raw, variant) =>
         ({ d with
            just_reached_new_step := decide (min raw d.count ≠ d.current_step),
            current_step := min raw d.count,
            variant := variant } : HeightDetector)) := rfl
  rw [hgoal, hcs]

theorem str_shape_comment {cmd : GCodeCommand} {code : List Char}
    (hcode : cmd.code = some code) (hne : code ≠ [])
    (h : ∀ kv ∈ cmd.args, kv.2 ≠ .VNone) (hc : cmd.comment ≠ []) :
    cmd.str = .ok (code ++ argTokens cmd.args ++ ';' :: cmd.comment) := by
  rw [GCodeCommand.str, hcode, fmtArgList_eq h]
  simp only [if_neg hne, if_neg hc]
  rfl

/-- C1: the claim says the hotend-temperature processor inserts M104 S190
immediately before the first G1 line of layer 1 and M104 S200 immediately
before the first G1 line of layer 3 for a single block carrying both
markers.  In fact the layer is latched once per block, so the second marker
never updates the layer, no second command is inserted at all, and the one
inserted command is placed immediately before the marker line itself, not
before the first G1 line. -/
theorem spec_C1_counterexample :
    processOutputs [.HotendTempProcessor 190 10]
      ⟨PrinterHead.init, LayerHeightDetector.mk' 1 1 5⟩
      [(";LAYER:1\nG1 X1 F100\n;LAYER:3\nG1 X2" : String).data] =
      .ok [("M104 S190\n;LAYER:1\nG1 X1 F100\n;LAYER:3\nG1 X2\n" : String).data] ∧
    ("M104 S190\n;LAYER:1\nG1 X1 F100\n;LAYER:3\nG1 X2\n" : String).data ≠
      (";LAYER:1\nM104 S190\nG1 X1 F100\n;LAYER:3\nM104 S200\nG1 X2\n" : String).data := by
  constructor
  · with_unfolding_all rfl
  · decide

/-- C1 (amended): with the two markers in two separate blocks, the
hotend-temperature step processor (start=190, increment=10, layer detector
offset=1, stepSize=1, stepCount=5) inserts M104 S190 immediately before the
layer-1 marker line and M104 S210 (value 190 + (3-1)*10) immediately before
the layer-3 marker line, leaving every other line of the trimmed input
byte-identical. -/
theorem spec_C1_amended :
    processOutputs [.HotendTempProcessor 190 10]
      ⟨PrinterHead.init, LayerHeightDetector.mk' 1 1 5⟩
      [(";LAYER:1\nG1 X1 F100" : String).data, (";LAYER:3\nG1 X2" : String).data] =
      .ok [("M104 S190\n;LAYER:1\nG1 X1 F100\n" : String).data,
           ("M104 S210\n;LAYER:3\nG1 X2\n" : String).data] := by
  with_unfolding_all rfl

/-- C2: the claim says a continuous-rewrite processor treats a line that is
not a recognized catalog command as "does not apply" and returns normally.
In fact PrintSpeedProcessor.handle parses the marker's line with no
try/except, so once the detector is inside a calibration region an
unsupported code such as G92 raises and the error escapes process_data:
the whole pipeline run fails. -/
theorem spec_C2 :
    processOutputs [.PrintSpeedProcessor 100 10]
      ⟨PrinterHead.init, LayerHeightDetector.mk' 1 1 5⟩
      [(";LAYER:1\nG92 E0" : String).data] = .error .unsupportedCommand := by
  with_unfolding_all rfl

/-- C3: the claim says format always emits the present arguments in the
schema-declared order.  In fact __str__ walks the args dict in insertion
order: building a G0 with keywords X then F formats as "G0 X10.0 F5.0",
not the schema order "G0 F5.0 X10.0". -/
theorem spec_C3_counterexample :
    (do
      let c ← GCodeCommand.new LINEAR_MOTION_COMMAND []
        [('X', .VFloat 10), ('F', .VFloat 5)]
      c.str) = .ok ("G0 X10.0 F5.0" : String).data ∧
    ("G0 X10.0 F5.0" : String).data ≠ ("G0 F5.0 X10.0" : String).data := by
  constructor
  · with_unfolding_all rfl
  · decide

/-- C3 (amended): for every catalog schema and every valid numeric argument
list, build succeeds and keeps the arguments in keyword order; format of the
built command succeeds; parse of that string returns the same values rounded
to 5 decimals, reordered into schema order; a second format/parse round is a
fixed point; and format appends ';' plus the comment when it is non-empty. -/
theorem spec_C3_amended (descr : GCodeDescr) (hmem : descr ∈ gcodeCatalog)
    (args : List (Char × Value)) (hva : validNumArgs descr args)
    (comment : List Char) (hcm : comment ≠ []) :
    GCodeCommand.new descr [] args = .ok ⟨some descr.code, args, []⟩ ∧
    (∃ s1 s2,
      GCodeCommand.str ⟨some descr.code, args, []⟩ = .ok s1 ∧
      GCodeCommand.parse s1 =
        .ok ⟨some descr.code, schemaRoundArgs descr.arguments args, []⟩ ∧
      GCodeCommand.str
        ⟨some descr.code, schemaRoundArgs descr.arguments args, []⟩ = .ok s2 ∧
      GCodeCommand.parse s2 =
        .ok ⟨some descr.code, schemaRoundArgs descr.arguments args, []⟩) ∧
    GCodeCommand.str ⟨some descr.code, args, comment⟩ =
      .ok (descr.code ++ argTokens args ++ ';' :: comment) := by
  obtain ⟨hnew, hrt⟩ := build_format_parse descr hmem args hva
  refine ⟨hnew, hrt, ?_⟩
  have hnn : ∀ kv ∈ args, kv.2 ≠ Value.VNone := by
    intro kv hkv
    obtain ⟨kind, hlk, hm, hk⟩ := validNumArgs_elim hva hkv
    exact (roundVal_ne_none hm hk).1
  exact str_shape_comment rfl (catalog_wf descr hmem).1 hnn hcm

/-- C3 (witness): the amended round-trip at the G0 schema with keyword
order X, F and comment "c". -/
theorem spec_C3_witness :
    GCodeCommand.new LINEAR_MOTION_COMMAND []
        [('X', .VFloat 10), ('F', .VFloat 5)] =
      .ok ⟨some LINEAR_MOTION_COMMAND.code,
        [('X', .VFloat 10), ('F', .VFloat 5)], []⟩ ∧
    (∃ s1 s2,
      GCodeCommand.str ⟨some LINEAR_MOTION_COMMAND.code,
        [('X', .VFloat 10), ('F', .VFloat 5)], []⟩ = .ok s1 ∧
      GCodeCommand.parse s1 =
        .ok ⟨some LINEAR_MOTION_COMMAND.code,
          schemaRoundArgs LINEAR_MOTION_COMMAND.arguments
            [('X', .VFloat 10), ('F', .VFloat 5)], []⟩ ∧
      GCodeCommand.str ⟨some LINEAR_MOTION_COMMAND.code,
        schemaRoundArgs LINEAR_MOTION_COMMAND.arguments
          [('X', .VFloat 10), ('F', .VFloat 5)], []⟩ = .ok s2 ∧
      GCodeCommand.parse s2 =
        .ok ⟨some LINEAR_MOTION_COMMAND.code,
          schemaRoundArgs LINEAR_MOTION_COMMAND.arguments
            [('X', .VFloat 10), ('F', .VFloat 5)], []⟩) ∧
    GCodeCommand.str ⟨some LINEAR_MOTION_COMMAND.code,
        [('X', .VFloat 10), ('F', .VFloat 5)], ['c']⟩ =
      .ok (LINEAR_MOTION_COMMAND.code ++
        argTokens [('X', .VFloat 10), ('F', .VFloat 5)] ++ ';' :: ['c']) :=
  spec_C3_amended LINEAR_MOTION_COMMAND (by decide)
    [('X', .VFloat 10), ('F', .VFloat 5)] (by with_unfolding_all decide)
    ['c'] (by decide)

/-- C4: the claim says each output block consists of the corresponding
input block's lines unchanged except for processor insertions.  In fact
process_data strips every line and drops blank lines even with no
processors configured: a block " ;a " comes back as ";a\n", not " ;a \n". -/
theorem spec_C4_counterexample :
    processOutputs [] ⟨PrinterHead.init, LayerHeightDetector.mk' 1 1 5⟩
      [(" ;a " : String).data] = .ok [(";a\n" : String).data] ∧
    (";a\n" : String).data ≠ (" ;a \n" : String).data := by
  constructor
  · with_unfolding_all rfl
  · decide

/-- C4 (amended): a successful process_data returns one output block per
input block; each output block is the corresponding input block's stripped
non-blank lines in their original relative order, each possibly wrapped in
processor-inserted lines before and after it, joined with newlines plus a
trailing newline; with no processors configured it is exactly the stripped
non-blank lines. -/
theorem spec_C4_amended (ps : List Processor) (st : PState)
    (bs out : List (List Char))
    (h : processOutputs ps st bs = .ok out) :
    out.length = bs.length ∧
    List.Forall₂ (fun b nb =>
      ∃ trips : List (List (List Char) × List Char × List (List Char)),
        trips.length = (keptLines b).length ∧
        nb = joinChar '\n' ((trips.map tripLines).flatten) ++ ['\n'] ∧
        (ps = [] → nb = joinChar '\n' (keptLines b) ++ ['\n'])) bs out := by
  rw [processOutputs] at h
  cases hpd : process_data ps st bs with
  | error e => rw [hpd] at h; cases h
  | ok pr =>
    rw [hpd] at h
    obtain ⟨st', out'⟩ := pr
    have hout : out' = out := Except.ok.inj h
    subst hout
    exact process_data_shape ps bs st st' out' hpd

/-- C4 (witness): the amended shape at a one-block input with no
processors. -/
theorem spec_C4_amended_witness :
    ([("a\n" : String).data] : List (List Char)).length =
      ([("a" : String).data] : List (List Char)).length ∧
    List.Forall₂ (fun b nb =>
      ∃ trips : List (List (List Char) × List Char × List (List Char)),
        trips.length = (keptLines b).length ∧
        nb = joinChar '\n' ((trips.map tripLines).flatten) ++ ['\n'] ∧
        (([] : List Processor) = [] → nb = joinChar '\n' (keptLines b) ++ ['\n']))
      [("a" : String).data] [("a\n" : String).data] :=
  spec_C4_amended [] ⟨PrinterHead.init, LayerHeightDetector.mk' 1 1 5⟩
    [("a" : String).data] [("a\n" : String).data] (by with_unfolding_all rfl)

/-- C5: the claim says normalize(current, offset, stepSize) equals
ceil(max(0, current - offset + 1) / stepSize) for every stepSize > 0
including non-integer values.  In fact normalize is a floor division, and
the floor/ceil correspondence needs an integer numerator and divisor: at
current = 1, offset = 1, stepSize = 1/2 normalize gives 1 while the claimed
ceiling is 2. -/
theorem spec_C5_counterexample :
    HeightDetector.normalize 1 1 (1 / 2) = 1 ∧
    ⌈max 0 ((1 : ℚ) - 1 + 1) / ((1 : ℚ) / 2)⌉ = 2 ∧ (1 : ℤ) ≠ 2 := by
  refine ⟨?_, ?_, by decide⟩
  · with_unfolding_all rfl
  · with_unfolding_all rfl

/-- C5 (amended): when the step size is a positive integer s and
current - offset + 1 is an integer, normalize(current, offset, s) equals
ceil(max(0, current - offset + 1) / s). -/
theorem spec_C5_amended (r s : ℤ) (hs : 0 < s) (c o : ℚ)
    (hro : c - o + 1 = (r : ℚ)) :
    HeightDetector.normalize c o (s : ℚ) = ⌈max 0 (c - o + 1) / (s : ℚ)⌉ := by
  rw [HeightDetector.normalize, hro]
  have hmax : max 0 ((r : ℚ)) = ((max 0 r : ℤ) : ℚ) := by
    rw [Int.cast_max, Int.cast_zero]
  rw [hmax]
  exact floor_add_div_eq_ceil hs

/-- C5 (witness): the amended identity at current = 2, offset = 1,
stepSize = 1, where both sides are 2. -/
theorem spec_C5_amended_witness :
    HeightDetector.normalize 2 1 ((1 : ℤ) : ℚ) =
      ⌈max 0 ((2 : ℚ) - 1 + 1) / (((1 : ℤ)) : ℚ)⌉ :=
  spec_C5_amended 2 1 (by decide) 2 1 (by with_unfolding_all rfl)

/-- C6: the claim says currentStep always lands in [0, stepCount] and the
edge flag is true exactly when the committed step changes.  In fact a
fractional step size drives the floor division negative (layer 0, offset 2,
stepSize 1/2 commits currentStep = -1), and the layer-unknown branch resets
currentStep to 0 with the flag cleared even when that reset is itself a
change (from 1 to 0 here). -/
theorem spec_C6_counterexample :
    ((LayerHeightDetector.mk' 2 (1 / 2) 5).handle []
      PrinterHead.init (some 0)).current_step = -1 ∧
    ((⟨1, 1, 5, false, 1, .layer⟩ : HeightDetector).handle []
      PrinterHead.init none).current_step = 0 ∧
    ((⟨1, 1, 5, false, 1, .layer⟩ : HeightDetector).handle []
      PrinterHead.init none).just_reached_new_step = false := by
  refine ⟨?_, by with_unfolding_all rfl, by with_unfolding_all rfl⟩
  with_unfolding_all rfl

/-- C6 (amended): when the step size is at least 1 and the detector starts
with 0 ≤ currentStep and 0 ≤ stepCount, every handle call commits a
currentStep in [0, stepCount]; when no layer is known it commits 0 with the
edge flag cleared; and when a layer is known the edge flag is true exactly
when the newly committed step differs from the previously committed one. -/
theorem spec_C6_amended (d : HeightDetector) (line : List Char)
    (head : PrinterHead) (layer : Option ℤ)
    (hs : 1 ≤ d.step_size) (h0 : 0 ≤ d.current_step) (hc : 0 ≤ d.count) :
    (0 ≤ (d.handle line head layer).current_step ∧
      (d.handle line head layer).current_step ≤ d.count) ∧
    (layer = none → (d.handle line head layer).current_step = 0 ∧
      (d.handle line head layer).just_reached_new_step = false) ∧
    (∀ l, layer = some l →
      ((d.handle line head layer).just_reached_new_step = true ↔
        (d.handle line head layer).current_step ≠ d.current_step)) := by
  cases layer with
  | none =>
    refine ⟨⟨le_refl 0, hc⟩, fun _ => ⟨rfl, rfl⟩, fun l hl => by cases hl⟩
  | some l =>
    rcases hcs : ({ d with just_reached_new_step := false
        } : HeightDetector).calculate_step line head l with ⟨raw, variant⟩
    have hred := handle_some_fields d line head l raw variant hcs
    have hraw : 0 ≤ raw :=
      @calculate_step_nonneg { d with just_reached_new_step := false }
        line head l raw variant hs h0 hcs
    rw [hred]
    constructor
    · constructor
      · show (0 : ℤ) ≤ min raw d.count
        exact le_min hraw hc
      · show min raw d.count ≤ d.count
        exact min_le_right _ _
    · constructor
      · intro hnone
        cases hnone
      · intro l' hl'
        show decide (min raw d.count ≠ d.current_step) = true ↔
          min raw d.count ≠ d.current_step
        exact decide_eq_true_iff

/-- C6 (witness): the amended invariant at a fresh layer detector
(offset 1, stepSize 1, count 5) seeing layer 3. -/
theorem spec_C6_amended_witness :
    (0 ≤ ((LayerHeightDetector.mk' 1 1 5).handle [] PrinterHead.init
        (some 3)).current_step ∧
      ((LayerHeightDetector.mk' 1 1 5).handle [] PrinterHead.init
        (some 3)).current_step ≤ (LayerHeightDetector.mk' 1 1 5).count) ∧
    ((some 3 : Option ℤ) = none →
      ((LayerHeightDetector.mk' 1 1 5).handle [] PrinterHead.init
        (some 3)).current_step = 0 ∧
      ((LayerHeightDetector.mk' 1 1 5).handle [] PrinterHead.init
        (some 3)).just_reached_new_step = false) ∧
    (∀ l, (some 3 : Option ℤ) = some l →
      (((LayerHeightDetector.mk' 1 1 5).handle [] PrinterHead.init
          (some 3)).just_reached_new_step = true ↔
        ((LayerHeightDetector.mk' 1 1 5).handle [] PrinterHead.init
          (some 3)).current_step ≠ (LayerHeightDetector.mk' 1 1 5).current_step)) :=
  spec_C6_amended (LayerHeightDetector.mk' 1 1 5) [] PrinterHead.init (some 3)
    (by with_unfolding_all decide) (by decide) (by decide)

/-- C7: on a G1 command carrying E but none of X, Y, Z, the retraction
tracker enters RETRACTING with lastRetractionLength = previous - new when
the extrusion value strictly drops, enters PRIMING when it strictly rises,
and a G1 carrying X, Y or Z, or carrying no E, changes neither the phase
nor lastRetractionLength. -/
theorem spec_C7 (r : Retraction) (cmd : GCodeCommand)
    (hc : cmd.command = some LINEAR_MOTION_EXTRUDED_COMMAND) :
    (assocHas 'E' cmd.args = true → assocHas 'X' cmd.args = false →
     assocHas 'Y' cmd.args = false → assocHas 'Z' cmd.args = false →
      (((List.lookup 'E' cmd.args).getD .VNone).toQ < r.e →
        (r.handle_linear_motion cmd).state = .RETRACTING ∧
        (r.handle_linear_motion cmd).last_retract =
          r.e - ((List.lookup 'E' cmd.args).getD .VNone).toQ) ∧
      (r.e < ((List.lookup 'E' cmd.args).getD .VNone).toQ →
        (r.handle_linear_motion cmd).state = .PRIMING)) ∧
    ((assocHas 'E' cmd.args = false ∨ assocHas 'X' cmd.args = true ∨
      assocHas 'Y' cmd.args = true ∨ assocHas 'Z' cmd.args = true) →
      (r.handle_linear_motion cmd).state = r.state ∧
      (r.handle_linear_motion cmd).last_retract = r.last_retract) := by
  constructor
  · intro hE hX hY hZ
    simp only [Retraction.handle_linear_motion, hc, hE, hX, hY, hZ]
    norm_num
    simp only [Retraction.update_e]
    constructor
    · intro hlt
      rw [if_pos hlt]
      exact ⟨rfl, rfl⟩
    · intro hgt
      rw [if_neg (not_lt.mpr (le_of_lt hgt)), if_pos hgt]
  · intro hor
    rcases hor with h | h | h | h <;>
      simp only [Retraction.handle_linear_motion, hc, h, Retraction.update_e] <;>
      norm_num <;>
      split_ifs <;>
      simp [Retraction.update_e]

/-- C7 (witness): an extrusion-only move dropping E from 20 to 15 enters
RETRACTING with lastRetractionLength 5. -/
theorem spec_C7_witness :
    ((⟨0, 20, 0, .NONE⟩ : Retraction).handle_linear_motion
        ⟨some ['G', '1'], [('E', .VFloat 15)], []⟩).state = .RETRACTING ∧
    ((⟨0, 20, 0, .NONE⟩ : Retraction).handle_linear_motion
        ⟨some ['G', '1'], [('E', .VFloat 15)], []⟩).last_retract = 5 := by
  have h := (spec_C7 ⟨0, 20, 0, .NONE⟩
      ⟨some ['G', '1'], [('E', .VFloat 15)], []⟩ (by decide)).1
    rfl rfl rfl rfl
  have h2 := h.1 (by with_unfolding_all decide)
  refine ⟨h2.1, ?_⟩
  rw [h2.2]
  with_unfolding_all rfl

/-- C8: handle_new_line runs once per line before parsing, advancing
PRIMING to JUST_PRIMED and JUST_PRIMED to NONE, so after a line that left
the tracker PRIMING, the next processed line observes JUST_PRIMED and the
line after that observes NONE, absent a new retract or prime trigger. -/
theorem spec_C8 (h : PrinterHead) (l1 l2 : List Char)
    (hpr : h.retraction.state = .PRIMING)
    (ht1 : ¬ lineTriggers h l1) (ht2 : ¬ lineTriggers (h.handle l1) l2) :
    (h.handle l1).retraction.state = .JUST_PRIMED ∧
    ((h.handle l1).handle l2).retraction.state = .NONE := by
  have h1 := handle_state_no_trigger h l1 ht1
  have hnl1 : h.retraction.handle_new_line.state = .JUST_PRIMED := by
    rw [Retraction.handle_new_line, if_pos hpr]
  have hA : (h.handle l1).retraction.state = .JUST_PRIMED := h1.trans hnl1
  refine ⟨hA, ?_⟩
  have h2 := handle_state_no_trigger (h.handle l1) l2 ht2
  rw [h2, Retraction.handle_new_line]
  rw [if_neg (by rw [hA]; intro hcon; cases hcon)]
  rw [if_pos hA]

/-- C8 (witness): a head whose tracker is PRIMING, fed two comment lines,
observes JUST_PRIMED after the first and NONE after the second. -/
theorem spec_C8_witness :
    ((⟨0, 0, 0, 0, .VInt 0, 0, ⟨0, 0, 0, .PRIMING⟩⟩ : PrinterHead).handle
        [';', 'x']).retraction.state = .JUST_PRIMED ∧
    (((⟨0, 0, 0, 0, .VInt 0, 0, ⟨0, 0, 0, .PRIMING⟩⟩ : PrinterHead).handle
        [';', 'x']).handle [';', 'x']).retraction.state = .NONE :=
  spec_C8 ⟨0, 0, 0, 0, .VInt 0, 0, ⟨0, 0, 0, .PRIMING⟩⟩ [';', 'x'] [';', 'x'] rfl
    (by
      rintro ⟨cmd, hp, hcmd, -⟩
      rw [show GCodeCommand.parse [';', 'x'] = .ok ⟨none, [], ['x']⟩ from rfl] at hp
      cases hp
      exact Option.noConfusion hcmd)
    (by
      rintro ⟨cmd, hp, hcmd, -⟩
      rw [show GCodeCommand.parse [';', 'x'] = .ok ⟨none, [], ['x']⟩ from rfl] at hp
      cases hp
      exact Option.noConfusion hcmd)

/-- C9: the claim says a run is a pure function of the input blocks and the
processor configuration, so two successive process_data calls on the same
processor object and input agree.  In fact the printer-head and detector
state the object owns survives the first call: with the retraction-length
processor configured, the same one-block input is rewritten to different
G-code on the second run. -/
theorem spec_C9_counterexample :
    ((process_data [.RetractionLengthProcessor 3 1]
        ⟨PrinterHead.init, LayerHeightDetector.mk' 1 1 5⟩
        [(";LAYER:1\nG1 E-2\nG1 X1 E10" : String).data]).bind (fun r =>
      process_data [.RetractionLengthProcessor 3 1] r.1
        [(";LAYER:1\nG1 E-2\nG1 X1 E10" : String).data])).map (fun r => r.2) ≠
    (process_data [.RetractionLengthProcessor 3 1]
        ⟨PrinterHead.init, LayerHeightDetector.mk' 1 1 5⟩
        [(";LAYER:1\nG1 E-2\nG1 X1 E10" : String).data]).map (fun r => r.2) := by
  have h1 : ((process_data [.RetractionLengthProcessor 3 1]
        ⟨PrinterHead.init, LayerHeightDetector.mk' 1 1 5⟩
        [(";LAYER:1\nG1 E-2\nG1 X1 E10" : String).data]).bind (fun r =>
      process_data [.RetractionLengthProcessor 3 1] r.1
        [(";LAYER:1\nG1 E-2\nG1 X1 E10" : String).data])).map (fun r => r.2) =
      .ok [(";LAYER:1\nG1 E7.0\nG1 X1.0 E19.0\n" : String).data] := by
    with_unfolding_all rfl
  have h2 : (process_data [.RetractionLengthProcessor 3 1]
        ⟨PrinterHead.init, LayerHeightDetector.mk' 1 1 5⟩
        [(";LAYER:1\nG1 E-2\nG1 X1 E10" : String).data]).map (fun r => r.2) =
      .ok [(";LAYER:1\nG1 E-3.0\nG1 X1.0 E9.0\n" : String).data] := by
    with_unfolding_all rfl
  rw [h1, h2]
  decide

/-- C9 (amended): the output of a run is a function of the input blocks,
the processor configuration and the instance state at the start of the
call; with no processors configured it is independent of the instance
state, so any two starting states give identical outputs. -/
theorem spec_C9_amended (st1 st2 : PState) (bs : List (List Char)) :
    processOutputs [] st1 bs = processOutputs [] st2 bs := by
  obtain ⟨s1, h1⟩ := process_data_no_procs bs st1
  obtain ⟨s2, h2⟩ := process_data_no_procs bs st2
  rw [processOutputs, processOutputs, h1, h2]
  rfl

theorem except_bind_ok {ε α β : Type} (a : α) (f : α → Except ε β) :
    Except.bind (.ok a) f = f a := rfl

/-- C10: GCodeCommand.new type-checks each keyword against the schema's
declared type with no numeric coercion, so an integer for the float-typed F
argument is rejected; consequently the retraction-speed processor, handling
a retracting or priming G1 inside a calibration region while the tracked
feed rate is still its initial integer value, fails when it builds the
feed-rate-restore command, and the error escapes its handle. -/
theorem spec_C10 (start step : ℚ) (m : Marker) (d : HeightDetector)
    (head : PrinterHead) (cmd : GCodeCommand) (n : ℤ)
    (hstep : d.current_step ≠ 0)
    (hfeed : head.feedrate = .VInt n)
    (hstate : head.retraction.state = .RETRACTING ∨
      head.retraction.state = .PRIMING)
    (hp : GCodeCommand.parse m.line = .ok cmd)
    (hc : cmd.command = some LINEAR_MOTION_EXTRUDED_COMMAND) :
    GCodeCommand.new LINEAR_MOTION_EXTRUDED_COMMAND [] [('F', .VInt n)] =
      .error .valueError ∧
    (Processor.RetractionSpeedProcessor start step).handle m d head =
      .error .valueError := by
  have hnew : GCodeCommand.new LINEAR_MOTION_EXTRUDED_COMMAND []
      [('F', .VInt n)] = .error .valueError := rfl
  refine ⟨hnew, ?_⟩
  have hred : (Processor.RetractionSpeedProcessor start step).handle m d head =
      (if d.current_step ≠ 0 then
        Except.bind (GCodeCommand.parse m.line) (fun cmd =>
          if cmd.command = some LINEAR_MOTION_EXTRUDED_COMMAND then
            if head.retraction.state = .RETRACTING ∨
               head.retraction.state = .PRIMING then
              Except.bind (GCodeCommand.str { cmd with
                  args := assocSet 'F'
                    (.VFloat (rampValue start step d.current_step)) cmd.args })
                (fun s =>
                  Except.bind (GCodeCommand.new LINEAR_MOTION_EXTRUDED_COMMAND []
                    [('F', head.feedrate)]) (fun restore =>
                      Except.bind restore.str (fun rs =>
                        .ok { m with
                          line := s,
                          lines_after := m.lines_after ++ [rs] })))
            else .ok m
          else .ok m)
      else .ok m) := rfl
  rw [hred, if_pos hstep, hp]
  simp only [except_bind_ok]
  rw [if_pos hc, if_pos hstate]
  have hargs : ∀ kv ∈ assocSet 'F'
      (Value.VFloat (rampValue start step d.current_step)) cmd.args,
      kv.2 ≠ Value.VNone := by
    intro kv hkv
    rcases mem_assocSet hkv with rfl | hmem
    · intro hcon; cases hcon
    · obtain ⟨q, hq⟩ := parse_G1_args_float hp hc kv hmem
      rw [hq]; intro hcon; cases hcon
  obtain ⟨s, hs⟩ := @str_ok_of_args { cmd with
    args := assocSet 'F'
      (Value.VFloat (rampValue start step d.current_step)) cmd.args } hargs
  rw [hs]
  simp only [except_bind_ok]
  rw [hfeed, hnew]
  rfl

/-- C10 (witness): a retraction-speed processor at step 1 handling the
retracting line G1 E1 with a fresh head (integer feed rate 0) fails with a
ValueError from the command builder. -/
theorem spec_C10_witness :
    GCodeCommand.new LINEAR_MOTION_EXTRUDED_COMMAND [] [('F', .VInt 0)] =
      .error .valueError ∧
    (Processor.RetractionSpeedProcessor 10 1).handle
      (Marker.mk' ("G1 E1" : String).data)
      ⟨1, 1, 5, false, 1, .layer⟩
      ⟨0, 0, 0, 0, .VInt 0, 0, ⟨5, 0, 5, .RETRACTING⟩⟩ = .error .valueError :=
  spec_C10 10 1 (Marker.mk' ("G1 E1" : String).data)
    ⟨1, 1, 5, false, 1, .layer⟩
    ⟨0, 0, 0, 0, .VInt 0, 0, ⟨5, 0, 5, .RETRACTING⟩⟩
    ⟨some ['G', '1'], [('E', .VFloat 1)], []⟩ 0
    (by decide) rfl (Or.inl rfl) (by with_unfolding_all rfl) (by decide)
